import Mathlib

/-!
Verification development for the marching-cubes voxel terrain engine
(isosurface extraction, chunk streaming, worker dispatch).

The definitions below are shallow embeddings of the repository's
TypeScript sources:
  * `TRIANGLE_TABLE` — src/terrain/TriangleTable.ts (the shipped table:
    16 populated cases, the `for (let i = 16; i < 256; i++)` loop filling
    the remaining cases with `[-1]`);
  * the `MC` namespace — the MarchingCubes extractor (marchingCubes.ts,
    the revision with seamless welding, double-sided emission and
    boundary extrapolation);
  * the `TC` namespace — TerrainChunk.modifyTerrain;
  * the `CM` namespace — the ChunkManager queue / worker-pool state
    machine.

Real-number arithmetic of the source is embedded over `ℚ`; every place
the source calls `Math.sqrt` the embedding takes an explicit function
parameter `sq : ℚ → ℚ`, and theorems that depend on properties of the
real square root state them as hypotheses on `sq`.
-/

namespace MCP

/-- Inclusive integer range `[a, b]` as a list, `a, a+1, …, b`
(empty when `b < a`); used to embed `for` loops with integer bounds. -/
def intRange (a b : ℤ) : List ℤ :=
  (List.range (b + 1 - a).toNat).map (fun (i : ℕ) => a + (i : ℤ))

theorem mem_intRange {a b k : ℤ} : k ∈ intRange a b ↔ a ≤ k ∧ k ≤ b := by
  unfold intRange
  simp only [List.mem_map, List.mem_range]
  constructor
  · rintro ⟨i, hi, rfl⟩
    omega
  · rintro ⟨h1, h2⟩
    exact ⟨(k - a).toNat, by omega, by omega⟩

theorem nodup_intRange (a b : ℤ) : (intRange a b).Nodup := by
  unfold intRange
  refine List.Nodup.map ?_ (List.nodup_range _)
  intro x y h
  simp only at h
  omega

/-! ## Triangle Table (src/terrain/TriangleTable.ts)

The shipped file populates cases 0–15 with explicit edge lists and then
runs `for (let i = 16; i < 256; i++) TRIANGLE_TABLE[i] = [-1];`. -/

/-- The sixteen explicitly listed entries of `TRIANGLE_TABLE`
(cases 0–15 of TriangleTable.ts). -/
def triangleTableBase : List (List ℤ) :=
  [ [-1],
    [0, 8, 3, -1],
    [0, 1, 9, -1],
    [1, 8, 3, 9, 8, 1, -1],
    [1, 2, 10, -1],
    [0, 8, 3, 1, 2, 10, -1],
    [9, 2, 10, 0, 2, 9, -1],
    [2, 8, 3, 2, 10, 8, 10, 9, 8, -1],
    [3, 11, 2, -1],
    [0, 11, 2, 8, 11, 0, -1],
    [1, 9, 0, 2, 3, 11, -1],
    [1, 11, 2, 1, 9, 11, 9, 8, 11, -1],
    [3, 10, 1, 11, 10, 3, -1],
    [0, 10, 1, 0, 8, 10, 8, 11, 10, -1],
    [3, 9, 0, 3, 11, 9, 11, 10, 9, -1],
    [9, 8, 10, 10, 8, 11, -1] ]

/-- `TRIANGLE_TABLE` after the fill loop: cases 16–255 are `[-1]`. -/
def TRIANGLE_TABLE : List (List ℤ) :=
  triangleTableBase ++ List.replicate 240 [-1]

/-- `TRIANGLE_TABLE[c]` (out-of-range reads yield the empty entry). -/
def tableEntry (c : ℕ) : List ℤ :=
  TRIANGLE_TABLE.getD c [-1]

/-- The set of edge indices referenced by configuration `c`: all entries
of `TRIANGLE_TABLE[c]` other than the `-1` sentinel. -/
def edgeSet (c : ℕ) : Finset ℤ :=
  ((tableEntry c).filter (fun e => e ≠ -1)).toFinset

/-! ## Isosurface extractor (marchingCubes.ts, seamless/double-sided
revision).

`Math.sqrt` appears in the inverse-distance weights and in the normal
normalization; the embedding takes it as a parameter `sq : ℚ → ℚ`. -/

namespace MC

/-- `EDGES`: the two corner numbers of each of the 12 cube edges. -/
def EDGES : List (ℕ × ℕ) :=
  [(0, 1), (1, 2), (2, 3), (3, 0),
   (4, 5), (5, 6), (6, 7), (7, 4),
   (0, 4), (1, 5), (2, 6), (3, 7)]

/-- `VERTICES`: unit-cube offsets of the 8 corners. -/
def VERTICES : List (ℤ × ℤ × ℤ) :=
  [(0, 0, 0), (1, 0, 0), (1, 0, 1), (0, 0, 1),
   (0, 1, 0), (1, 1, 0), (1, 1, 1), (0, 1, 1)]

/-- The extractor options used by `generateMesh`/`polygonizeCube`. -/
structure MCOpts where
  isoLevel : ℚ
  minX : ℚ
  maxX : ℚ
  minY : ℚ
  maxY : ℚ
  minZ : ℚ
  maxZ : ℚ
  seamless : Bool
  doubleSided : Bool
deriving Repr, DecidableEq

/-- `getScalarFieldIndex`: bounds-checked flat index into the field
(`-1`, here `none`, outside the grid); `Math.floor` on the integer
arguments is the identity. -/
def getScalarFieldIndex (sx sy sz : ℕ) (x y z : ℤ) : Option ℕ :=
  if x < 0 ∨ y < 0 ∨ z < 0 ∨ (sx : ℤ) ≤ x ∨ (sy : ℤ) ≤ y ∨ (sz : ℤ) ≤ z then none
  else some (x + y * sx + z * sx * sy).toNat

/-- Accumulator of the inverse-distance-weighted boundary sampling:
`value`, `totalValue`, `totalWeight` of polygonizeCube's out-of-grid
corner branch. -/
structure IdwSt where
  value : ℚ
  totalValue : ℚ
  totalWeight : ℚ
deriving Repr, DecidableEq

/-- Sampling offsets `-padSize … padSize` with `padSize = 2`. -/
def idwOffsets : List ℤ := [-2, -1, 0, 1, 2]

/-- Inner `dx` loop of the boundary sampling; the `break` on a
near-exact match (`dist < 0.0001`) sets `totalWeight = 1`, keeps
`totalValue`, and cuts the remainder of this row only. -/
def idwRow (sq : ℚ → ℚ) (field : List ℚ) (sx sy sz : ℕ) (cx cy cz dy dz : ℤ) :
    List ℤ → IdwSt → IdwSt
  | [], st => st
  | dx :: rest, st =>
    match getScalarFieldIndex sx sy sz (cx + dx) (cy + dy) (cz + dz) with
    | none => idwRow sq field sx sy sz cx cy cz dy dz rest st
    | some i =>
      let dist := sq ((dx * dx + dy * dy + dz * dz : ℤ) : ℚ)
      if dist < 1 / 10000 then
        { value := field.getD i 0, totalValue := st.totalValue, totalWeight := 1 }
      else
        let w := 1 / (1 + dist)
        idwRow sq field sx sy sz cx cy cz dy dz rest
          { st with totalValue := st.totalValue + field.getD i 0 * w,
                    totalWeight := st.totalWeight + w }

/-- The out-of-grid corner value: defaults to solid (`-1`), then
replaces the default by the inverse-distance-weighted average of the
in-grid samples of the surrounding 5×5×5 block when any was found. -/
def synthesizeValue (sq : ℚ → ℚ) (field : List ℚ) (sx sy sz : ℕ) (cx cy cz : ℤ) : ℚ :=
  let v0 : ℚ := 1
  let v1 : ℚ :=
    if cx < 0 ∨ (sx : ℤ) ≤ cx ∨ cy < 0 ∨ (sy : ℤ) ≤ cy ∨ cz < 0 ∨ (sz : ℤ) ≤ cz then
      -1
    else v0
  let st := idwOffsets.foldl (fun st dz =>
      idwOffsets.foldl (fun st dy =>
        idwRow sq field sx sy sz cx cy cz dy dz idwOffsets st) st)
    { value := v1, totalValue := 0, totalWeight := 0 }
  if 0 < st.totalWeight then st.totalValue / st.totalWeight else st.value

/-- A cube corner's sample: direct field read in range, synthesized
boundary value otherwise. -/
def cornerValue (sq : ℚ → ℚ) (field : List ℚ) (sx sy sz : ℕ) (cx cy cz : ℤ) : ℚ :=
  match getScalarFieldIndex sx sy sz cx cy cz with
  | some i => field.getD i 0
  | none => synthesizeValue sq field sx sy sz cx cy cz

/-- The 8 corner samples of cell `(x, y, z)`. -/
def cubeValues (sq : ℚ → ℚ) (field : List ℚ) (sx sy sz : ℕ) (x y z : ℤ) : List ℚ :=
  VERTICES.map (fun v => cornerValue sq field sx sy sz (x + v.1) (y + v.2.1) (z + v.2.2))

/-- Configuration index: bit `i` set iff corner `i`'s value `< isoLevel`. -/
def cubeIndexOf (iso : ℚ) (vals : List ℚ) : ℕ :=
  (List.range 8).foldl (fun ci i => if vals.getD i 0 < iso then ci ||| (1 <<< i) else ci) 0

/-- `edgeCrossed`: the scan of `TRIANGLE_TABLE[cubeIndex]` up to the
`-1` sentinel for an occurrence of `edge`. -/
def edgeCrossed (ci : ℕ) (e : ℤ) : Bool :=
  ((tableEntry ci).takeWhile (fun t => t ≠ -1)).contains e

/-- Edge interpolation parameter of polygonizeCube: midpoint fallback
when the corner values are within `0.00001` of each other, otherwise
the linear parameter clamped to `[0.001, 0.999]`. -/
def interpolateT (iso val1 val2 : ℚ) : ℚ :=
  if 1 / 100000 < |val1 - val2| then
    max (1 / 1000) (min (999 / 1000) ((iso - val1) / (val2 - val1)))
  else 1 / 2

/-- `sampleScalarField`: clamped direct field sampling. -/
def sampleScalarField (field : List ℚ) (sx sy sz : ℕ) (x y z : ℚ) : ℚ :=
  let x := max 0 (min ((sx : ℚ) - 1) x)
  let y := max 0 (min ((sy : ℚ) - 1) y)
  let z := max 0 (min ((sz : ℚ) - 1) z)
  field.getD (⌊x⌋ + ⌊y⌋ * (sx : ℤ) + ⌊z⌋ * (sx : ℤ) * (sy : ℤ)).toNat 0

/-- `sampleScalarFieldSmooth`: trilinear interpolation of the 8
surrounding samples. -/
def sampleScalarFieldSmooth (field : List ℚ) (sx sy sz : ℕ) (x y z : ℚ) : ℚ :=
  let x0 := ⌊x⌋
  let y0 := ⌊y⌋
  let z0 := ⌊z⌋
  let x1 := min (x0 + 1) ((sx : ℤ) - 1)
  let y1 := min (y0 + 1) ((sy : ℤ) - 1)
  let z1 := min (z0 + 1) ((sz : ℤ) - 1)
  let xd := x - (x0 : ℚ)
  let yd := y - (y0 : ℚ)
  let zd := z - (z0 : ℚ)
  let v000 := sampleScalarField field sx sy sz (x0 : ℚ) (y0 : ℚ) (z0 : ℚ)
  let v100 := sampleScalarField field sx sy sz (x1 : ℚ) (y0 : ℚ) (z0 : ℚ)
  let v010 := sampleScalarField field sx sy sz (x0 : ℚ) (y1 : ℚ) (z0 : ℚ)
  let v110 := sampleScalarField field sx sy sz (x1 : ℚ) (y1 : ℚ) (z0 : ℚ)
  let v001 := sampleScalarField field sx sy sz (x0 : ℚ) (y0 : ℚ) (z1 : ℚ)
  let v101 := sampleScalarField field sx sy sz (x1 : ℚ) (y0 : ℚ) (z1 : ℚ)
  let v011 := sampleScalarField field sx sy sz (x0 : ℚ) (y1 : ℚ) (z1 : ℚ)
  let v111 := sampleScalarField field sx sy sz (x1 : ℚ) (y1 : ℚ) (z1 : ℚ)
  let v00 := v000 * (1 - xd) + v100 * xd
  let v01 := v001 * (1 - xd) + v101 * xd
  let v10 := v010 * (1 - xd) + v110 * xd
  let v11 := v011 * (1 - xd) + v111 * xd
  let v0 := v00 * (1 - yd) + v10 * yd
  let v1 := v01 * (1 - yd) + v11 * yd
  v0 * (1 - zd) + v1 * zd

/-- `calculateNormal`: one gradient component via central differences of
the smooth samples, with a division guard. -/
def calculateNormal (field : List ℚ) (sx sy sz : ℕ) (x y z : ℚ) (component : ℕ) : ℚ :=
  let step : ℚ := max 1 ((min sx (min sy sz) : ℕ) * (1 / 20 : ℚ))
  if component = 0 then
    let x1 := max 0 (x - step)
    let x2 := min ((sx : ℚ) - 1) (x + step)
    let v1 := sampleScalarFieldSmooth field sx sy sz x1 y z
    let v2 := sampleScalarFieldSmooth field sx sy sz x2 y z
    if |x2 - x1| < 1 / 100000 then 0 else (v2 - v1) / (x2 - x1)
  else if component = 1 then
    let y1 := max 0 (y - step)
    let y2 := min ((sy : ℚ) - 1) (y + step)
    let v1 := sampleScalarFieldSmooth field sx sy sz x y1 z
    let v2 := sampleScalarFieldSmooth field sx sy sz x y2 z
    if |y2 - y1| < 1 / 100000 then 0 else (v2 - v1) / (y2 - y1)
  else
    let z1 := max 0 (z - step)
    let z2 := min ((sz : ℚ) - 1) (z + step)
    let v1 := sampleScalarFieldSmooth field sx sy sz x y z1
    let v2 := sampleScalarFieldSmooth field sx sy sz x y z2
    if |z2 - z1| < 1 / 100000 then 0 else (v2 - v1) / (z2 - z1)

/-- The interpolated world-space vertex and normalized normal of edge
`e` of cell `(x, y, z)` (the body of polygonizeCube's per-edge loop). -/
def edgeVertexData (sq : ℚ → ℚ) (o : MCOpts) (field : List ℚ) (sx sy sz : ℕ)
    (x y z : ℤ) (vals : List ℚ) (e : ℕ) : (ℚ × ℚ × ℚ) × (ℚ × ℚ × ℚ) :=
  let ed := EDGES.getD e (0, 0)
  let p1 := VERTICES.getD ed.1 (0, 0, 0)
  let p2 := VERTICES.getD ed.2 (0, 0, 0)
  let val1 := vals.getD ed.1 0
  let val2 := vals.getD ed.2 0
  let t := interpolateT o.isoLevel val1 val2
  let vx : ℚ := (x : ℚ) + (p1.1 : ℚ) + t * ((p2.1 : ℚ) - (p1.1 : ℚ))
  let vy : ℚ := (y : ℚ) + (p1.2.1 : ℚ) + t * ((p2.2.1 : ℚ) - (p1.2.1 : ℚ))
  let vz : ℚ := (z : ℚ) + (p1.2.2 : ℚ) + t * ((p2.2.2 : ℚ) - (p1.2.2 : ℚ))
  let wx := o.minX + vx / ((sx : ℚ) - 1) * (o.maxX - o.minX)
  let wy := o.minY + vy / ((sy : ℚ) - 1) * (o.maxY - o.minY)
  let wz := o.minZ + vz / ((sz : ℚ) - 1) * (o.maxZ - o.minZ)
  let nx := calculateNormal field sx sy sz vx vy vz 0
  let ny := calculateNormal field sx sy sz vx vy vz 1
  let nz := calculateNormal field sx sy sz vx vy vz 2
  let len := sq (nx * nx + ny * ny + nz * nz)
  let nnx := if 1 / 100000 < len then nx / len else 0
  let nny := if 1 / 100000 < len then ny / len else 1
  let nnz := if 1 / 100000 < len then nz / len else 0
  ((wx, wy, wz), (nnx, nny, nnz))

/-- `edgeVertices`/`edgeNormals` as a partial map: data exists exactly
for in-range edges crossed by the configuration (a `-1` read of
`TRIANGLE_TABLE` maps to `none`, as the `undefined` lookup does). -/
def edgeData (sq : ℚ → ℚ) (o : MCOpts) (field : List ℚ) (sx sy sz : ℕ)
    (x y z : ℤ) (vals : List ℚ) (ci : ℕ) (e : ℤ) :
    Option ((ℚ × ℚ × ℚ) × (ℚ × ℚ × ℚ)) :=
  if 0 ≤ e ∧ e < 12 then
    if (tableEntry ci).headD (-1) ≠ -1 ∧ edgeCrossed ci e then
      some (edgeVertexData sq o field sx sy sz x y z vals e.toNat)
    else none
  else none

/-- The growing geometry buffers plus the pass-scoped vertex cache. -/
structure MeshBuf where
  positions : List ℚ
  normals : List ℚ
  indices : List ℕ
  cache : List ((ℚ × ℚ × ℚ) × ℕ)
deriving Repr, DecidableEq

def emptyBuf : MeshBuf := { positions := [], normals := [], indices := [], cache := [] }

/-- `Math.round(q * 1000) / 1000` (JS rounds half toward +∞, as `round`
does). -/
def qround (q : ℚ) : ℚ := ((round (q * 1000) : ℤ) : ℚ) / 1000

/-- The vertex-cache key: the position quantized per component. -/
def cacheKey (v : ℚ × ℚ × ℚ) : ℚ × ℚ × ℚ := (qround v.1, qround v.2.1, qround v.2.2)

/-- Emit one triangle corner: in seamless mode reuse a cached vertex
index when the quantized position was seen this pass, else append the
vertex (and cache it); in non-seamless mode always append. -/
def emitVertex (seamless : Bool) (b : MeshBuf) (v n : ℚ × ℚ × ℚ) : ℕ × MeshBuf :=
  if seamless then
    let key := cacheKey v
    match b.cache.find? (fun p => p.1 == key) with
    | some p => (p.2, b)
    | none =>
      let idx := b.positions.length / 3
      (idx, { b with positions := b.positions ++ [v.1, v.2.1, v.2.2],
                     normals := b.normals ++ [n.1, n.2.1, n.2.2],
                     cache := b.cache ++ [(cacheKey v, idx)] })
  else
    let idx := b.positions.length / 3
    (idx, { b with positions := b.positions ++ [v.1, v.2.1, v.2.2],
                   normals := b.normals ++ [n.1, n.2.1, n.2.2] })

/-- Collect `triangleIndices` for the three edges of one group (edges
without vertex data are skipped, as the `if (vertex && normal)` guard
does). -/
def collectTriangle (seamless : Bool) (ed : ℤ → Option ((ℚ × ℚ × ℚ) × (ℚ × ℚ × ℚ)))
    (b : MeshBuf) (es : List ℤ) : List ℕ × MeshBuf :=
  es.foldl (fun acc e =>
    match ed e with
    | some vn =>
      let r := emitVertex seamless acc.2 vn.1 vn.2
      (acc.1 ++ [r.1], r.2)
    | none => acc) ([], b)

/-- Emit one triangle group: indices are appended only when all three
corners were collected; in double-sided mode the reversed-winding copy
follows immediately. -/
def emitTriangle (o : MCOpts) (ed : ℤ → Option ((ℚ × ℚ × ℚ) × (ℚ × ℚ × ℚ)))
    (b : MeshBuf) (e0 e1 e2 : ℤ) : MeshBuf :=
  let c := collectTriangle o.seamless ed b [e0, e1, e2]
  if c.1.length = 3 then
    { c.2 with indices := c.2.indices ++
        [c.1.getD 0 0, c.1.getD 1 0, c.1.getD 2 0] ++
        (if o.doubleSided then [c.1.getD 2 0, c.1.getD 1 0, c.1.getD 0 0] else []) }
  else c.2

/-- The `for (i = 0; TABLE[ci][i] !== -1; i += 3)` triangle loop over a
sentinel-terminated table entry (every entry of the shipped table is
sentinel-terminated, so the structural recursion matches the source
loop). -/
def triangleLoop (o : MCOpts) (ed : ℤ → Option ((ℚ × ℚ × ℚ) × (ℚ × ℚ × ℚ))) :
    List ℤ → MeshBuf → MeshBuf
  | [], b => b
  | e0 :: rest, b =>
    if e0 = -1 then b
    else
      match rest with
      | e1 :: e2 :: rest2 => triangleLoop o ed rest2 (emitTriangle o ed b e0 e1 e2)
      | _ => emitTriangle o ed b e0 (rest.getD 0 (-1)) (-1)

/-- `polygonizeCube`: classify the cell and emit its triangles; fully
inside/outside cells (empty table entry) contribute nothing. -/
def polygonizeCube (sq : ℚ → ℚ) (o : MCOpts) (field : List ℚ) (sx sy sz : ℕ)
    (x y z : ℤ) (b : MeshBuf) : MeshBuf :=
  let vals := cubeValues sq field sx sy sz x y z
  let ci := cubeIndexOf o.isoLevel vals
  if (tableEntry ci).headD (-1) = -1 then b
  else triangleLoop o (edgeData sq o field sx sy sz x y z vals ci) (tableEntry ci) b

/-- Cell loop bounds of `generateMesh`:
`for (c = -padSize; c < size + padSize - 1; c++)` with `padSize = 1`,
i.e. `-1 … size - 1`. -/
def cellRange (n : ℕ) : List ℤ := intRange (-1) ((n : ℤ) - 1)

/-- `generateMesh`: run `polygonizeCube` over every (padded) cell,
z outermost, x innermost, starting from empty buffers and an empty
vertex cache. -/
def generateMesh (sq : ℚ → ℚ) (o : MCOpts) (field : List ℚ) (sx sy sz : ℕ) : MeshBuf :=
  (cellRange sz).foldl (fun b z =>
    (cellRange sy).foldl (fun b y =>
      (cellRange sx).foldl (fun b x =>
        polygonizeCube sq o field sx sy sz x y z b) b) b) emptyBuf

/-- Double-sided index streams: a sequence of 6-blocks, each a triangle
immediately followed by its reversed-winding copy. -/
inductive RevBlocks : List ℕ → Prop
  | nil : RevBlocks []
  | block (a b c : ℕ) {l : List ℕ} : RevBlocks l → RevBlocks (l ++ [a, b, c, c, b, a])

/-- Well-formedness of the emitted buffers: parallel normals, 3-aligned
positions, in-range indices (also for cached vertices), 3-aligned index
stream, and in double-sided mode reversed-copy 6-blocks. -/
def BufWF (ds : Bool) (b : MeshBuf) : Prop :=
  b.normals.length = b.positions.length ∧
  b.positions.length % 3 = 0 ∧
  (∀ i ∈ b.indices, i < b.positions.length / 3) ∧
  (∀ p ∈ b.cache, p.2 < b.positions.length / 3) ∧
  b.indices.length % 3 = 0 ∧
  (ds = true → RevBlocks b.indices)

end MC

/-! ## TerrainChunk (TerrainChunk.ts): bounds, brush edits. -/

namespace TC

/-- The chunk options used by `modifyTerrain` (`position` is the integer
chunk-grid coordinate as stored in `chunkPosition`, kept rational as in
the source's `Vector3`). -/
structure TCOpts where
  resolution : ℕ
  size : ℚ
  posX : ℚ
  posY : ℚ
  posZ : ℚ
deriving Repr, DecidableEq

structure TCBounds where
  minX : ℚ
  maxX : ℚ
  minY : ℚ
  maxY : ℚ
  minZ : ℚ
  maxZ : ℚ
deriving Repr, DecidableEq

/-- `calculateChunkBounds`: world box of the chunk, centered at
`chunkPosition * size` with half-size `size / 2`. -/
def calculateChunkBounds (o : TCOpts) : TCBounds :=
  let halfSize := o.size / 2
  let px := o.posX * o.size
  let py := o.posY * o.size
  let pz := o.posZ * o.size
  { minX := px - halfSize, maxX := px + halfSize,
    minY := py - halfSize, maxY := py + halfSize,
    minZ := pz - halfSize, maxZ := pz + halfSize }

/-- `containsPosition`: closed-box membership test. -/
def containsPosition (b : TCBounds) (wx wy wz : ℚ) : Bool :=
  decide (b.minX ≤ wx ∧ wx ≤ b.maxX ∧ b.minY ≤ wy ∧ wy ≤ b.maxY ∧
          b.minZ ≤ wz ∧ wz ≤ b.maxZ)

/-- `worldToLocalPosition`: map a world position into grid coordinates
`0 … resolution - 1` by the affine bounds transform plus `floor`. -/
def worldToLocalPosition (b : TCBounds) (res : ℕ) (wx wy wz : ℚ) : ℤ × ℤ × ℤ :=
  (⌊(wx - b.minX) / (b.maxX - b.minX) * ((res : ℚ) - 1)⌋,
   ⌊(wy - b.minY) / (b.maxY - b.minY) * ((res : ℚ) - 1)⌋,
   ⌊(wz - b.minZ) / (b.maxZ - b.minZ) * ((res : ℚ) - 1)⌋)

/-- A dirty-region box: min and max grid-cell corners. -/
abbrev Box := (ℤ × ℤ × ℤ) × (ℤ × ℤ × ℤ)

/-- Dirty-region expansion (lines 235–247 of modifyTerrain). -/
def mergeDirtyRegion (old : Option Box) (mn mx : ℤ × ℤ × ℤ) : Option Box :=
  match old with
  | none => some (mn, mx)
  | some r =>
    some ((min r.1.1 mn.1, min r.1.2.1 mn.2.1, min r.1.2.2 mn.2.2),
          (max r.2.1 mx.1, max r.2.2.1 mx.2.1, max r.2.2.2 mx.2.2))

/-- Result of `modifyTerrain`: the returned `modified` flag, and the
chunk state it mutates (density field, dirty region, dirty flag). -/
structure MTResult where
  modified : Bool
  field : List ℚ
  dirtyRegion : Option Box
  isDirty : Bool
deriving Repr, DecidableEq

/-- The grid cells visited by the brush loops, `z` outermost, `x`
innermost; cells are `(x, y, z)` triples. -/
def brushCells (mnx mxx mny mxy mnz mxz : ℤ) : List (ℤ × ℤ × ℤ) :=
  (intRange mnz mxz).flatMap (fun z =>
    (intRange mny mxy).flatMap (fun y =>
      (intRange mnx mxx).map (fun x => (x, y, z))))

/-- Flat field index of brush cell `(x, y, z)`:
`index = x + (y * resolution + z * resolution * resolution)`. -/
def brushIdx (res : ℕ) (c : ℤ × ℤ × ℤ) : ℤ :=
  c.1 + (c.2.1 * (res : ℤ) + c.2.2 * (res : ℤ) * (res : ℤ))

/-- Squared grid distance from cell `c` to the local position. -/
def cellDistSq (lx ly lz : ℤ) (c : ℤ × ℤ × ℤ) : ℚ :=
  ((c.1 - lx : ℤ) : ℚ) * ((c.1 - lx : ℤ) : ℚ) +
  ((c.2.1 - ly : ℤ) : ℚ) * ((c.2.1 - ly : ℤ) : ℚ) +
  ((c.2.2 - lz : ℤ) : ℚ) * ((c.2.2 - lz : ℤ) : ℚ)

/-- One iteration of the brush loop for cell `(x, y, z)`: skip cells
outside the radius, apply `strength * falloff²` (subtract when adding
terrain), set `modified` whenever the index was in range. -/
def brushStep (sq : ℚ → ℚ) (res : ℕ) (lx ly lz : ℤ) (r S : ℚ) (isAdding : Bool)
    (acc : Bool × List ℚ) (c : ℤ × ℤ × ℤ) : Bool × List ℚ :=
  let distSq := cellDistSq lx ly lz c
  if r * r < distSq then acc
  else
    let distance := if distSq < 1 / 10000 then 0 else sq distSq
    let falloff := 1 - min 1 (distance / r)
    let influence := S * falloff * falloff
    let idx := brushIdx res c
    if 0 ≤ idx ∧ idx < (acc.2.length : ℤ) then
      (true, acc.2.set idx.toNat
        (acc.2.getD idx.toNat 0 + (if isAdding then -influence else influence)))
    else acc

/-- `brushRadiusGrid = brushSize / minCellSize`, the brush radius in
grid cells. -/
def brushR (o : TCOpts) (brushSize : ℚ) : ℚ :=
  let b := calculateChunkBounds o
  let res := o.resolution
  brushSize /
    (min ((b.maxX - b.minX) / ((res : ℚ) - 1))
      (min ((b.maxY - b.minY) / ((res : ℚ) - 1))
        ((b.maxZ - b.minZ) / ((res : ℚ) - 1))))

/-- The clamped grid box of cells the brush loops iterate, around local
position `lp` with `radiusCeil = rc`. -/
def brushCellList (o : TCOpts) (lp : ℤ × ℤ × ℤ) (rc : ℤ) : List (ℤ × ℤ × ℤ) :=
  brushCells (max 0 (lp.1 - rc)) (min ((o.resolution : ℤ) - 1) (lp.1 + rc))
             (max 0 (lp.2.1 - rc)) (min ((o.resolution : ℤ) - 1) (lp.2.1 + rc))
             (max 0 (lp.2.2 - rc)) (min ((o.resolution : ℤ) - 1) (lp.2.2 + rc))

/-- A brush iteration touches cell `c` (with field length `n`): the
cell lies within the radius and its flat index is in range — exactly
the condition under which the loop body sets `modified = true`. -/
def brushHit (res n : ℕ) (lx ly lz : ℤ) (r : ℚ) (c : ℤ × ℤ × ℤ) : Prop :=
  cellDistSq lx ly lz c ≤ r * r ∧ 0 ≤ brushIdx res c ∧ brushIdx res c < (n : ℤ)

instance (res n : ℕ) (lx ly lz : ℤ) (r : ℚ) (c : ℤ × ℤ × ℤ) :
    Decidable (brushHit res n lx ly lz r c) := by
  unfold brushHit
  infer_instance

/-- `TerrainChunk.modifyTerrain`: out-of-bounds positions are a no-op
returning `false`; otherwise run the brush over the clamped grid box
around the local position (`Math.floor(localPos)` is the identity on
the already-floored local coordinates). -/
def modifyTerrain (sq : ℚ → ℚ) (o : TCOpts) (field : List ℚ)
    (dirtyRegion : Option Box) (isDirty : Bool)
    (wx wy wz brushSize brushStrength : ℚ) (isAdding : Bool) : MTResult :=
  let b := calculateChunkBounds o
  if containsPosition b wx wy wz = false then
    { modified := false, field := field, dirtyRegion := dirtyRegion, isDirty := isDirty }
  else
    let res := o.resolution
    let lp := worldToLocalPosition b res wx wy wz
    let r := brushR o brushSize
    let rc := ⌈r⌉
    let minGX := max 0 (lp.1 - rc)
    let maxGX := min ((res : ℤ) - 1) (lp.1 + rc)
    let minGY := max 0 (lp.2.1 - rc)
    let maxGY := min ((res : ℤ) - 1) (lp.2.1 + rc)
    let minGZ := max 0 (lp.2.2 - rc)
    let maxGZ := min ((res : ℤ) - 1) (lp.2.2 + rc)
    let dr := mergeDirtyRegion dirtyRegion (minGX, minGY, minGZ) (maxGX, maxGY, maxGZ)
    let out := (brushCellList o lp rc).foldl
        (brushStep sq res lp.1 lp.2.1 lp.2.2 r brushStrength isAdding) (false, field)
    { modified := out.1, field := out.2, dirtyRegion := dr,
      isDirty := if out.1 then true else isDirty }

end TC

/-! ## ChunkManager (ChunkManager.ts): chunk map, pending set, FIFO job
queue, worker pool, in-flight set.

Worker identity does not matter to the claims, so the idle pool is its
size; chunk map / pending set / in-flight set are association or key
lists with their Map/Set operations. -/

namespace CM

/-- Chunk key: the integer chunk-grid coordinate (the source's
`"x,y,z"` string key is in bijection with it). -/
abbrev Key := ℤ × ℤ × ℤ

/-- Per-chunk state visible to the manager claims: the dirty flag
(`needsUpdate`) and whether a mesh has been produced. -/
structure ChunkSt where
  isDirty : Bool
  hasMesh : Bool
deriving Repr, DecidableEq

structure MgrState where
  chunks : List (Key × ChunkSt)
  pendingUpdates : List Key
  chunkQueue : List Key
  inProgress : List Key
  workerPool : ℕ
deriving Repr, DecidableEq

/-- `this.chunks.get(key)`. -/
def findChunk (s : MgrState) (k : Key) : Option ChunkSt :=
  (s.chunks.find? (fun p => p.1 == k)).map (fun p => p.2)

/-- Overwrite chunk `k`'s state in the map. -/
def setChunk (s : MgrState) (k : Key) (c : ChunkSt) : MgrState :=
  { s with chunks := s.chunks.map (fun p => if p.1 = k then (k, c) else p) }

/-- `Set.add` / `Map.set k true` on a key list: insert if absent. -/
def insertKey (l : List Key) (k : Key) : List Key :=
  if k ∈ l then l else l ++ [k]

/-- `processNextChunkInQueue` recursing structurally on the queue (the
rest of the state never changes before the recursive call): return when
the queue or the pool is empty; shift the head; skip (and recurse) when
its chunk was evicted; otherwise take a worker, mark the key in flight
and dispatch. -/
def processNextFrom (s : MgrState) : List Key → MgrState
  | [] => { s with chunkQueue := [] }
  | k :: rest =>
    if s.workerPool = 0 then { s with chunkQueue := k :: rest }
    else if (findChunk s k).isNone then processNextFrom s rest
    else
      { s with chunkQueue := rest,
               workerPool := s.workerPool - 1,
               inProgress := insertKey s.inProgress k }

/-- `processNextChunkInQueue`. -/
def processNextChunkInQueue (s : MgrState) : MgrState :=
  processNextFrom s s.chunkQueue

/-- Worker → manager messages (the job transport protocol's response). -/
inductive WorkerMsg
  | chunkComplete (k : Key)
  | error (k : Key)
deriving Repr, DecidableEq

/-- `handleWorkerMessage`: on `chunkComplete`, apply the geometry to the
owning chunk if it still exists (`updateMeshFromData` clears the dirty
flag), clear the in-flight mark, return the worker to the pool, and try
the next dispatch. The handler has no branch for any other message
type, so an `error` message leaves the state untouched. -/
def handleWorkerMessage (s : MgrState) (m : WorkerMsg) : MgrState :=
  match m with
  | .chunkComplete k =>
    let s1 :=
      match findChunk s k with
      | some c => setChunk s k { c with hasMesh := true, isDirty := false }
      | none => s
    processNextChunkInQueue
      { s1 with inProgress := s1.inProgress.filter (fun j => j ≠ k),
                workerPool := s1.workerPool + 1 }
  | .error _ => s

/-- An edit that actually modified chunk `k` (its
`TerrainChunk.modifyTerrain` returned `true`, setting the dirty flag):
the manager adds the key to `pendingUpdates`
(`ChunkManager.modifyTerrain`). -/
def editChunk (s : MgrState) (k : Key) : MgrState :=
  match findChunk s k with
  | none => s
  | some c =>
    let s1 := setChunk s k { c with isDirty := true }
    { s1 with pendingUpdates := insertKey s1.pendingUpdates k }

/-- One iteration of `updateChunks` for pending key `k`: skip evicted,
clean or in-flight chunks, else enqueue the key and try dispatch. -/
def updateChunksStep (s : MgrState) (k : Key) : MgrState :=
  match findChunk s k with
  | some c =>
    if c.isDirty then
      if k ∈ s.inProgress then s
      else processNextChunkInQueue { s with chunkQueue := s.chunkQueue ++ [k] }
    else s
  | none => s

/-- `updateChunks`: iterate over `pendingUpdates`, then clear it
wholesale. -/
def updateChunks (s : MgrState) : MgrState :=
  let s1 := s.pendingUpdates.foldl updateChunksStep s
  { s1 with pendingUpdates := [] }

/-- `createChunk`: insert a fresh chunk (no mesh yet, not dirty), queue
its first mesh job, and try dispatch. -/
def createChunk (s : MgrState) (k : Key) : MgrState :=
  processNextChunkInQueue
    { s with chunks := s.chunks ++ [(k, { isDirty := false, hasMesh := false })],
             chunkQueue := s.chunkQueue ++ [k] }

/-- `removeChunk`: drop the chunk from the map, the pending set, and
the first matching queue entry (findIndex + splice). -/
def removeChunk (s : MgrState) (k : Key) : MgrState :=
  if (findChunk s k).isSome then
    { s with chunks := s.chunks.filter (fun p => p.1 ≠ k),
             pendingUpdates := s.pendingUpdates.filter (fun j => j ≠ k),
             chunkQueue := s.chunkQueue.erase k }
  else s

/-- The render-sphere offsets: the source skips an offset when
`Math.sqrt(x² + y² + z²) > renderDistance`, which for integers is
exactly `x² + y² + z² > renderDistance²`; loop order x, y, z. -/
def ballOffsets (rd : ℕ) : List (ℤ × ℤ × ℤ) :=
  (intRange (-(rd : ℤ)) rd).flatMap (fun x =>
    (intRange (-(rd : ℤ)) rd).flatMap (fun y =>
      (intRange (-(rd : ℤ)) rd).filterMap (fun z =>
        if (rd : ℤ) * (rd : ℤ) < x * x + y * y + z * z then none
        else some (x, y, z))))

/-- The chunk keys within render distance of center cell `c`. -/
def ballCells (c : Key) (rd : ℕ) : List Key :=
  (ballOffsets rd).map (fun d => (c.1 + d.1, c.2.1 + d.2.1, c.2.2 + d.2.2))

/-- Euclidean ball membership on the chunk grid. -/
def inBall (c : Key) (rd : ℕ) (k : Key) : Prop :=
  (k.1 - c.1) ^ 2 + (k.2.1 - c.2.1) ^ 2 + (k.2.2 - c.2.2) ^ 2 ≤ (rd : ℤ) ^ 2

instance (c : Key) (rd : ℕ) (k : Key) : Decidable (inBall c rd k) := by
  unfold inBall
  infer_instance

/-- The body of the ensure loop of `generateChunksAroundPosition`:
`if (!this.chunks.has(chunkKey)) this.createChunk(...)`. -/
def ensureChunk (s : MgrState) (k : Key) : MgrState :=
  if (findChunk s k).isSome then s else createChunk s k

/-- The body of the eviction loop of `generateChunksAroundPosition`:
`if (!activeChunkKeys.has(key)) this.removeChunk(key)`. -/
def evictChunk (active : List Key) (s : MgrState) (k : Key) : MgrState :=
  if k ∈ active then s else removeChunk s k

/-- `generateChunksAroundPosition` (with the focus cell precomputed):
ensure a chunk per in-range cell, then evict every chunk whose key is
not in the active set. -/
def generateChunksAroundPosition (s : MgrState) (c : Key) (rd : ℕ) : MgrState :=
  let active := ballCells c rd
  let s1 := active.foldl ensureChunk s
  (s1.chunks.map (fun p => p.1)).foldl (evictChunk active) s1

/-! Scenario states used by the manager claims. -/

/-- The origin chunk key. -/
def k000 : Key := (0, 0, 0)

/-- A fresh manager with a single idle worker and no chunks. -/
def managerInit : MgrState :=
  { chunks := [], pendingUpdates := [], chunkQueue := [], inProgress := [],
    workerPool := 1 }

/-- `managerInit` after `createChunk (0,0,0)`: the chunk's first mesh
job was dispatched to the only worker, so the key is in flight and the
pool is empty. -/
def managerBusy : MgrState := createChunk managerInit k000

/-- A manager whose two workers are both busy (keys `(1,0,0)` and
`(2,0,0)` in flight, pool empty) while chunk `(0,0,0)` sits idle with a
mesh. -/
def managerTwoBusy : MgrState :=
  { chunks := [(k000, { isDirty := false, hasMesh := true }),
               ((1, 0, 0), { isDirty := false, hasMesh := false }),
               ((2, 0, 0), { isDirty := false, hasMesh := false })],
    pendingUpdates := [], chunkQueue := [], inProgress := [(1, 0, 0), (2, 0, 0)],
    workerPool := 0 }

end CM

/-! # Theorems -/

set_option maxRecDepth 100000

/-! ## C1 — Triangle Table complement symmetry -/

/-- C1 (counterexample): the claim "for every configuration index c in
[0, 255], the Triangle Table entry for c and the entry for its bitwise
complement 255 − c reference the same set of edge indices" is false at
c = 1: `TRIANGLE_TABLE[1]` references edges {0, 3, 8} while
`TRIANGLE_TABLE[254]` (filled by the `i = 16 … 255` loop) is empty. -/
theorem c1_complement_invariant_fails : edgeSet 1 ≠ edgeSet 254 := by
  decide

/-- C1 (amended): the complement invariant holds exactly on the
configurations whose entries the shipped table populates symmetrically:
c = 0 and c = 255 (both empty) and every c with 16 ≤ c ≤ 239 (where
both c and 255 − c are filled with the empty placeholder entry); it
fails for 1 ≤ c ≤ 15 against the empty entries 240 ≤ 255 − c ≤ 254, so
negating a density field need not preserve triangle counts. -/
theorem c1_complement_invariant_restricted :
    ∀ c : ℕ, c < 256 → (c = 0 ∨ c = 255 ∨ (16 ≤ c ∧ c ≤ 239)) →
      edgeSet c = edgeSet (255 - c) := by
  decide

/-- C1 witness: the restricted invariant applied at c = 0. -/
theorem c1_complement_invariant_restricted_witness : edgeSet 0 = edgeSet 255 :=
  c1_complement_invariant_restricted 0 (by decide) (Or.inl rfl)

/-! ## Chunk Manager lemmas -/

namespace CM

theorem processNextFrom_pool_zero (s : MgrState) (h : s.workerPool = 0)
    (l : List Key) : processNextFrom s l = { s with chunkQueue := l } := by
  cases l with
  | nil => rfl
  | cons k rest => simp [processNextFrom, h]

theorem processNext_pool_zero {s : MgrState} (h : s.workerPool = 0) :
    processNextChunkInQueue s = s := by
  unfold processNextChunkInQueue
  rw [processNextFrom_pool_zero s h]

theorem updateChunksStep_pool_zero (s : MgrState) (j : Key) (h : s.workerPool = 0) :
    (updateChunksStep s j).workerPool = 0 ∧
    (updateChunksStep s j).pendingUpdates = s.pendingUpdates ∧
    ((updateChunksStep s j).chunkQueue = s.chunkQueue ∨
     (updateChunksStep s j).chunkQueue = s.chunkQueue ++ [j]) := by
  unfold updateChunksStep
  cases hf : findChunk s j with
  | none => simp [h]
  | some c =>
    cases hd : c.isDirty with
    | false => simp [hd, h]
    | true =>
      by_cases hin : j ∈ s.inProgress
      · simp [hd, hin, h]
      · have hz : ({ s with chunkQueue := s.chunkQueue ++ [j] } : MgrState).workerPool = 0 := h
        simp only [hd, hin, if_true, if_false]
        rw [processNext_pool_zero hz]
        simp [h]

theorem insertKey_nodup {l : List Key} (k : Key) (h : l.Nodup) :
    (insertKey l k).Nodup := by
  unfold insertKey
  split
  · exact h
  · next hk =>
    rw [List.nodup_append]
    exact ⟨h, List.nodup_singleton k,
      fun a ha hak => hk ((List.mem_singleton.mp hak) ▸ ha)⟩

theorem count_le_one_of_nodup {l : List Key} (h : l.Nodup) (k : Key) :
    l.count k ≤ 1 := by
  induction l with
  | nil => simp
  | cons a t ih =>
    rw [List.count_cons]
    have ⟨ha, ht⟩ := List.nodup_cons.mp h
    by_cases hk : k = a
    · subst hk
      have hz : t.count k = 0 := by
        rw [List.count_eq_zero]
        exact ha
      simp [hz]
    · have hb : (a == k) = false := beq_eq_false_iff_ne.mpr (fun h2 => hk h2.symm)
      rw [hb]
      simpa using ih ht

theorem foldl_updateChunksStep_count (k : Key) :
    ∀ (l : List Key) (s : MgrState), s.workerPool = 0 →
      (l.foldl updateChunksStep s).chunkQueue.count k ≤
        s.chunkQueue.count k + l.count k ∧
      (l.foldl updateChunksStep s).workerPool = 0 := by
  intro l
  induction l with
  | nil => intro s h; simp [h]
  | cons j t ih =>
    intro s h
    obtain ⟨hp, _, hq⟩ := updateChunksStep_pool_zero s j h
    obtain ⟨ih1, ih2⟩ := ih (updateChunksStep s j) hp
    refine ⟨?_, by simpa using ih2⟩
    simp only [List.foldl_cons] at *
    rcases hq with hq | hq
    · rw [hq] at ih1
      refine le_trans ih1 ?_
      have hc : t.count k ≤ (j :: t).count k := by
        rw [List.count_cons]
        exact Nat.le_add_right _ _
      omega
    · rw [hq] at ih1
      refine le_trans ih1 (le_of_eq ?_)
      rw [List.count_append, List.count_cons, List.count_nil, List.count_cons]
      ring

theorem editChunk_parts (s : MgrState) (k : Key) :
    (editChunk s k).chunkQueue = s.chunkQueue ∧
    (editChunk s k).workerPool = s.workerPool ∧
    (editChunk s k).inProgress = s.inProgress ∧
    ((editChunk s k).pendingUpdates = s.pendingUpdates ∨
      (editChunk s k).pendingUpdates = insertKey s.pendingUpdates k) := by
  unfold editChunk
  cases hf : findChunk s k with
  | none => simp
  | some c => simp [setChunk]

theorem editChunk_pending_nodup (s : MgrState) (k : Key)
    (h : s.pendingUpdates.Nodup) : (editChunk s k).pendingUpdates.Nodup := by
  obtain ⟨_, _, _, hp⟩ := editChunk_parts s k
  rcases hp with hp | hp <;> rw [hp]
  · exact h
  · exact insertKey_nodup k h

end CM

/-! ## C2 — worker-reported extraction error handling -/

/-- C2: the claim says a worker-reported extraction error frees the
worker slot (returning the worker to the pool and clearing the chunk's
in-flight mark). The code's `handleWorkerMessage` has a branch only for
`chunkComplete`, so an `error` message leaves the manager state
completely unchanged: from the reachable state `managerBusy` (one chunk
whose first job occupies the only worker), the error leaves the key in
flight and the pool empty forever — the slot leaks and the chunk can
never be remeshed. (The chunk does keep its previous mesh, and there is
indeed no retry.) -/
theorem c2_error_message_ignored :
    CM.handleWorkerMessage CM.managerBusy (CM.WorkerMsg.error CM.k000) =
        CM.managerBusy ∧
    CM.managerBusy.inProgress = [CM.k000] ∧
    CM.managerBusy.workerPool = 0 ∧
    CM.findChunk CM.managerBusy CM.k000 =
        some { isDirty := false, hasMesh := false } := by
  decide

/-! ## C3 — edits arriving while a chunk is in flight -/

/-- C3: the claim says an edit applied while the chunk's job is in
flight eventually causes a follow-up remesh job. In the reachable
trace below the edit on the in-flight chunk `(0,0,0)` marks it dirty
and pending, but `updateChunks` skips in-flight keys and then clears
`pendingUpdates` wholesale, and the completion handler resets the dirty
flag: the final state is quiescent (empty queue, empty pending set,
nothing in flight, chunk not dirty, and both `updateChunks` and
`processNextChunkInQueue` are fixed on it), so no follow-up job is ever
enqueued — the edit is silently dropped. -/
theorem c3_midflight_edit_dropped :
    CM.findChunk (CM.editChunk CM.managerBusy CM.k000) CM.k000 =
        some { isDirty := true, hasMesh := false } ∧
    (CM.updateChunks (CM.editChunk CM.managerBusy CM.k000)).chunkQueue = [] ∧
    (CM.updateChunks (CM.editChunk CM.managerBusy CM.k000)).pendingUpdates = [] ∧
    CM.handleWorkerMessage (CM.updateChunks (CM.editChunk CM.managerBusy CM.k000))
        (CM.WorkerMsg.chunkComplete CM.k000) =
      ({ chunks := [(CM.k000, { isDirty := false, hasMesh := true })],
         pendingUpdates := [], chunkQueue := [], inProgress := [],
         workerPool := 1 } : CM.MgrState) ∧
    CM.updateChunks
        ({ chunks := [(CM.k000, { isDirty := false, hasMesh := true })],
           pendingUpdates := [], chunkQueue := [], inProgress := [],
           workerPool := 1 } : CM.MgrState) =
      ({ chunks := [(CM.k000, { isDirty := false, hasMesh := true })],
         pendingUpdates := [], chunkQueue := [], inProgress := [],
         workerPool := 1 } : CM.MgrState) ∧
    CM.processNextChunkInQueue
        ({ chunks := [(CM.k000, { isDirty := false, hasMesh := true })],
           pendingUpdates := [], chunkQueue := [], inProgress := [],
           workerPool := 1 } : CM.MgrState) =
      ({ chunks := [(CM.k000, { isDirty := false, hasMesh := true })],
         pendingUpdates := [], chunkQueue := [], inProgress := [],
         workerPool := 1 } : CM.MgrState) := by
  decide

/-! ## C4 — per-key job uniqueness -/

/-- C4 (counterexample): two edits issued against chunk `(0,0,0)`
before its job is dispatched (both workers are busy with other chunks),
each followed by its own `updateChunks` pass, leave TWO queued jobs for
the key, not one; and as the two busy workers complete, both queue
entries are dispatched — after the second completion the pool is empty
again while `(0,0,0)` is the only in-flight key, i.e. two workers run
the same chunk concurrently. -/
theorem c4_duplicate_jobs_and_double_dispatch :
    (CM.updateChunks (CM.editChunk
        (CM.updateChunks (CM.editChunk CM.managerTwoBusy CM.k000))
        CM.k000)).chunkQueue = [CM.k000, CM.k000] ∧
    (CM.handleWorkerMessage
        (CM.updateChunks (CM.editChunk
          (CM.updateChunks (CM.editChunk CM.managerTwoBusy CM.k000)) CM.k000))
        (CM.WorkerMsg.chunkComplete (1, 0, 0))).inProgress = [(2, 0, 0), CM.k000] ∧
    (CM.handleWorkerMessage
        (CM.updateChunks (CM.editChunk
          (CM.updateChunks (CM.editChunk CM.managerTwoBusy CM.k000)) CM.k000))
        (CM.WorkerMsg.chunkComplete (1, 0, 0))).workerPool = 0 ∧
    (CM.handleWorkerMessage (CM.handleWorkerMessage
        (CM.updateChunks (CM.editChunk
          (CM.updateChunks (CM.editChunk CM.managerTwoBusy CM.k000)) CM.k000))
        (CM.WorkerMsg.chunkComplete (1, 0, 0)))
        (CM.WorkerMsg.chunkComplete (2, 0, 0))).inProgress = [CM.k000] ∧
    (CM.handleWorkerMessage (CM.handleWorkerMessage
        (CM.updateChunks (CM.editChunk
          (CM.updateChunks (CM.editChunk CM.managerTwoBusy CM.k000)) CM.k000))
        (CM.WorkerMsg.chunkComplete (1, 0, 0)))
        (CM.WorkerMsg.chunkComplete (2, 0, 0))).workerPool = 0 := by
  decide

/-- C4 (amended): edits against one chunk coalesce only within a single
update batch — `pendingUpdates` is a set, so two edits processed by one
`updateChunks` pass enqueue at most one new job for the key; edits
processed in separate passes while the job is still queued produce
duplicate queue entries, and dispatch does not re-check the in-flight
mark, so a key can reach two workers concurrently. -/
theorem c4_single_batch_coalescing (s : CM.MgrState) (k : CM.Key)
    (hpool : s.workerPool = 0) (hnd : s.pendingUpdates.Nodup) :
    (CM.updateChunks (CM.editChunk (CM.editChunk s k) k)).chunkQueue.count k ≤
      s.chunkQueue.count k + 1 := by
  obtain ⟨hq1, hw1, _, _⟩ := CM.editChunk_parts s k
  obtain ⟨hq2, hw2, _, _⟩ := CM.editChunk_parts (CM.editChunk s k) k
  have hpool2 : (CM.editChunk (CM.editChunk s k) k).workerPool = 0 := by
    rw [hw2, hw1, hpool]
  have hnd2 : (CM.editChunk (CM.editChunk s k) k).pendingUpdates.Nodup :=
    CM.editChunk_pending_nodup _ k (CM.editChunk_pending_nodup _ k hnd)
  have hcount : (CM.editChunk (CM.editChunk s k) k).pendingUpdates.count k ≤ 1 :=
    CM.count_le_one_of_nodup hnd2 k
  have hqq : (CM.editChunk (CM.editChunk s k) k).chunkQueue = s.chunkQueue := by
    rw [hq2, hq1]
  obtain ⟨h1, _⟩ := CM.foldl_updateChunksStep_count k
      (CM.editChunk (CM.editChunk s k) k).pendingUpdates
      (CM.editChunk (CM.editChunk s k) k) hpool2
  rw [hqq] at h1
  have hu : (CM.updateChunks (CM.editChunk (CM.editChunk s k) k)).chunkQueue =
      ((CM.editChunk (CM.editChunk s k) k).pendingUpdates.foldl CM.updateChunksStep
        (CM.editChunk (CM.editChunk s k) k)).chunkQueue := by
    unfold CM.updateChunks
    rfl
  rw [hu]
  omega

/-- C4 witness: the coalescing bound applied at the concrete two-busy
state. -/
theorem c4_single_batch_coalescing_witness :
    (CM.updateChunks (CM.editChunk (CM.editChunk CM.managerTwoBusy CM.k000)
        CM.k000)).chunkQueue.count CM.k000 ≤
      CM.managerTwoBusy.chunkQueue.count CM.k000 + 1 :=
  c4_single_batch_coalescing CM.managerTwoBusy CM.k000 (by decide) (by decide)


namespace CM

theorem mem_ballCells {c k : Key} {rd : ℕ} :
    k ∈ ballCells c rd ↔ inBall c rd k := by
  unfold ballCells ballOffsets inBall
  simp only [List.mem_map, List.mem_flatMap, List.mem_filterMap, mem_intRange]
  constructor
  · rintro ⟨d, ⟨x, hx, y, hy, z, hz, hcond⟩, rfl⟩
    split at hcond
    · exact absurd hcond (by simp)
    · next hle =>
      obtain ⟨rfl⟩ : d = (x, y, z) := by
        cases hcond
        rfl
      push_neg at hle
      simpa [add_sub_cancel_left] using by nlinarith [hle]
  · intro h
    refine ⟨(k.1 - c.1, k.2.1 - c.2.1, k.2.2 - c.2.2), ⟨k.1 - c.1, ?_, k.2.1 - c.2.1, ?_,
      k.2.2 - c.2.2, ?_, ?_⟩, by simp⟩
    · constructor <;> nlinarith [h, sq_nonneg (k.2.1 - c.2.1), sq_nonneg (k.2.2 - c.2.2)]
    · constructor <;> nlinarith [h, sq_nonneg (k.1 - c.1), sq_nonneg (k.2.2 - c.2.2)]
    · constructor <;> nlinarith [h, sq_nonneg (k.1 - c.1), sq_nonneg (k.2.1 - c.2.1)]
    · rw [if_neg]
      push_neg
      nlinarith [h]

end CM


namespace CM

theorem findChunk_isSome_iff_mem_keys (s : MgrState) (k : Key) :
    (findChunk s k).isSome = true ↔ k ∈ s.chunks.map (fun p => p.1) := by
  unfold findChunk
  cases hf : s.chunks.find? (fun p => p.1 == k) with
  | none =>
    rw [List.find?_eq_none] at hf
    simp only [Option.map_none', Option.isSome_none, Bool.false_eq_true, false_iff]
    intro h
    obtain ⟨q, hq, hk⟩ := List.mem_map.mp h
    exact hf q hq (by simp [hk])
  | some q =>
    have hq := List.find?_some hf
    simp only at hq
    have hmem : q ∈ s.chunks := List.mem_of_find?_eq_some hf
    simp only [Option.map_some', Option.isSome_some, true_iff]
    exact List.mem_map.mpr ⟨q, hmem, by simpa using hq⟩

theorem findChunk_eq_none_of_not_mem_keys (s : MgrState) (k : Key)
    (h : k ∉ s.chunks.map (fun p => p.1)) : findChunk s k = none := by
  have h2 := (findChunk_isSome_iff_mem_keys s k).not.mpr h
  cases hv : findChunk s k with
  | none => rfl
  | some c => exact absurd (by rw [hv]; rfl) h2

theorem createChunk_pool_zero (s : MgrState) (k : Key) (h : s.workerPool = 0) :
    createChunk s k =
      { s with chunks := s.chunks ++ [(k, { isDirty := false, hasMesh := false })],
               chunkQueue := s.chunkQueue ++ [k] } := by
  unfold createChunk
  exact processNext_pool_zero h

theorem findChunk_append_single (s : MgrState) (k : Key) (c : ChunkSt) (k' : Key) :
    findChunk { s with chunks := s.chunks ++ [(k, c)] } k' =
      if (findChunk s k').isSome = true then findChunk s k'
      else if k = k' then some c else none := by
  unfold findChunk
  rw [List.find?_append]
  cases hf : s.chunks.find? (fun p => p.1 == k') with
  | none =>
    simp only [Option.map_none', Option.none_orElse]
    by_cases hk : k = k'
    · subst hk
      simp [List.find?]
    · have : ((k, c).1 == k') = false := by simpa using hk
      simp [List.find?, this, hk]
  | some p =>
    simp [Option.isSome_some]

end CM


namespace CM

theorem ensure_fold_spec :
    ∀ (l : List Key) (s : MgrState), s.workerPool = 0 →
      (l.foldl ensureChunk s).workerPool = 0 ∧
      (l.foldl ensureChunk s).pendingUpdates = s.pendingUpdates ∧
      (l.foldl ensureChunk s).inProgress = s.inProgress ∧
      ((s.chunks.map (fun p => p.1)).Nodup →
        ((l.foldl ensureChunk s).chunks.map (fun p => p.1)).Nodup) ∧
      (∀ k, ((findChunk (l.foldl ensureChunk s) k).isSome = true) ↔
          ((findChunk s k).isSome = true ∨ k ∈ l)) ∧
      (∀ k, (l.foldl ensureChunk s).chunkQueue.count k =
          s.chunkQueue.count k +
            (if (findChunk s k).isSome = false ∧ k ∈ l then 1 else 0)) := by
  intro l
  induction l with
  | nil =>
    intro s h
    refine ⟨h, rfl, rfl, fun hnd => hnd, fun k => by simp, fun k => by simp⟩
  | cons j t ih =>
    intro s h
    by_cases hj : (findChunk s j).isSome = true
    · have he : ensureChunk s j = s := by simp [ensureChunk, hj]
      simp only [List.foldl_cons, he]
      obtain ⟨ih1, ih2, ih3, ih4, ih5, ih6⟩ := ih s h
      refine ⟨ih1, ih2, ih3, ih4, ?_, ?_⟩
      · intro k
        rw [ih5 k]
        by_cases hk : k = j
        · subst hk
          simp [hj]
        · simp [List.mem_cons, hk]
      · intro k
        rw [ih6 k]
        by_cases hk : k = j
        · subst hk
          simp [hj]
        · simp [List.mem_cons, hk]
    · have hnone : findChunk s j = none := by
        cases hv : findChunk s j with
        | none => rfl
        | some c => exact absurd (by rw [hv]; rfl) hj
      have he : ensureChunk s j = createChunk s j := by simp [ensureChunk, hj]
      have hc : createChunk s j =
          { s with chunks := s.chunks ++ [(j, { isDirty := false, hasMesh := false })],
                   chunkQueue := s.chunkQueue ++ [j] } := createChunk_pool_zero s j h
      set s' : MgrState :=
        { s with chunks := s.chunks ++ [(j, { isDirty := false, hasMesh := false })],
                 chunkQueue := s.chunkQueue ++ [j] } with hs'
      have hfind : ∀ k, findChunk s' k =
          if (findChunk s k).isSome = true then findChunk s k
          else if j = k then some { isDirty := false, hasMesh := false } else none :=
        fun k => findChunk_append_single s j _ k
      have hw' : s'.workerPool = 0 := h
      obtain ⟨ih1, ih2, ih3, ih4, ih5, ih6⟩ := ih s' hw'
      simp only [List.foldl_cons, he, hc]
      refine ⟨ih1, ih2, ih3, ?_, ?_, ?_⟩
      · intro hnd
        apply ih4
        have hjmem : j ∉ s.chunks.map (fun p => p.1) := by
          intro hmem
          exact hj ((findChunk_isSome_iff_mem_keys s j).mpr hmem)
        have : s'.chunks.map (fun p => p.1) = s.chunks.map (fun p => p.1) ++ [j] := by
          simp [hs']
        rw [this, List.nodup_append]
        exact ⟨hnd, List.nodup_singleton j,
          fun a ha hak => hjmem ((List.mem_singleton.mp hak) ▸ ha)⟩
      · intro k
        rw [ih5 k, hfind k]
        by_cases hk : k = j
        · subst hk
          simp [hnone]
        · by_cases hks : (findChunk s k).isSome = true
          · simp [hks, List.mem_cons, hk]
          · have hk2 : ¬j = k := fun h2 => hk h2.symm
            simp [hks, List.mem_cons, hk, hk2]
      · intro k
        rw [ih6 k, hfind k]
        have hqc : s'.chunkQueue.count k =
            s.chunkQueue.count k + (if k = j then 1 else 0) := by
          simp only [hs', List.count_append, List.count_cons, List.count_nil]
          by_cases hk : k = j
          · simp [hk]
          · have hk2 : ¬j = k := fun h2 => hk h2.symm
            simp [hk, hk2]
        rw [hqc]
        by_cases hk : k = j
        · subst hk
          simp [hnone, hj]
        · by_cases hks : (findChunk s k).isSome = true
          · simp [hks, List.mem_cons, hk]
          · have hk2 : ¬j = k := fun h2 => hk h2.symm
            simp [hks, List.mem_cons, hk, hk2]

end CM


namespace CM

theorem find?_filter_ne (l : List (Key × ChunkSt)) (k j : Key) (hne : k ≠ j) :
    (l.filter (fun p => p.1 ≠ j)).find? (fun p => p.1 == k) =
      l.find? (fun p => p.1 == k) := by
  induction l with
  | nil => rfl
  | cons a t ih =>
    by_cases haj : a.1 = j
    · have h1 : (decide (a.1 ≠ j)) = false := by simp [haj]
      have h2 : (a.1 == k) = false := by
        simp [haj]
        exact fun h3 => hne (h3 ▸ rfl)
      simp only [List.filter_cons, h1, List.find?_cons, h2]
      exact ih
    · have h1 : (decide (a.1 ≠ j)) = true := by simp [haj]
      by_cases hak : a.1 = k
      · have h2 : (a.1 == k) = true := by simp [hak]
        simp [List.filter_cons, haj, h1, List.find?_cons, h2]
      · have h2 : (a.1 == k) = false := by simp [hak]
        simp only [List.filter_cons, h1, if_true, List.find?_cons, h2]
        exact ih

theorem removeChunk_other (s : MgrState) (j k : Key) (hne : k ≠ j) :
    findChunk (removeChunk s j) k = findChunk s k ∧
    ((removeChunk s j).chunkQueue.count k = s.chunkQueue.count k) ∧
    (k ∈ (removeChunk s j).pendingUpdates ↔ k ∈ s.pendingUpdates) ∧
    (removeChunk s j).workerPool = s.workerPool := by
  unfold removeChunk
  by_cases hg : (findChunk s j).isSome = true
  · rw [if_pos hg]
    refine ⟨?_, ?_, ?_, rfl⟩
    · unfold findChunk
      rw [find?_filter_ne s.chunks k j hne]
    · exact List.count_erase_of_ne hne s.chunkQueue
    · simp [List.mem_filter, hne]
  · rw [if_neg hg]
    exact ⟨rfl, rfl, Iff.rfl, rfl⟩

theorem removeChunk_self (s : MgrState) (k : Key)
    (hg : (findChunk s k).isSome = true) :
    findChunk (removeChunk s k) k = none ∧
    k ∉ (removeChunk s k).pendingUpdates ∧
    (s.chunkQueue.count k ≤ 1 → k ∉ (removeChunk s k).chunkQueue) := by
  unfold removeChunk
  rw [if_pos hg]
  refine ⟨?_, ?_, ?_⟩
  · unfold findChunk
    have : (s.chunks.filter (fun p => p.1 ≠ k)).find? (fun p => p.1 == k) = none := by
      rw [List.find?_eq_none]
      intro p hp
      have := (List.mem_filter.mp hp).2
      simpa using this
    rw [this]
    rfl
  · simp [List.mem_filter]
  · intro hc hm
    have hm2 : k ∈ s.chunkQueue.erase k := hm
    have hce : (s.chunkQueue.erase k).count k = s.chunkQueue.count k - 1 :=
      List.count_erase_self k s.chunkQueue
    have hpos := List.count_pos_iff.mpr hm2
    omega

end CM


namespace CM

theorem evictChunk_subsets (active : List Key) (s : MgrState) (j : Key) :
    (evictChunk active s j).pendingUpdates ⊆ s.pendingUpdates ∧
    (evictChunk active s j).chunkQueue ⊆ s.chunkQueue := by
  unfold evictChunk
  split
  · exact ⟨List.Subset.refl _, List.Subset.refl _⟩
  · unfold removeChunk
    split
    · exact ⟨fun x hx => List.mem_of_mem_filter hx,
             fun x hx => List.mem_of_mem_erase hx⟩
    · exact ⟨List.Subset.refl _, List.Subset.refl _⟩

theorem evict_fold_subsets (active : List Key) :
    ∀ (l : List Key) (s : MgrState),
      (l.foldl (evictChunk active) s).pendingUpdates ⊆ s.pendingUpdates ∧
      (l.foldl (evictChunk active) s).chunkQueue ⊆ s.chunkQueue := by
  intro l
  induction l with
  | nil => intro s; exact ⟨List.Subset.refl _, List.Subset.refl _⟩
  | cons j t ih =>
    intro s
    obtain ⟨ih1, ih2⟩ := ih (evictChunk active s j)
    obtain ⟨h1, h2⟩ := evictChunk_subsets active s j
    exact ⟨List.Subset.trans ih1 h1, List.Subset.trans ih2 h2⟩

theorem evict_fold_spec (active : List Key) :
    ∀ (l : List Key) (s : MgrState),
      (∀ k ∈ l, (findChunk s k).isSome = true) → l.Nodup →
      (∀ k, k ∈ active →
         findChunk (l.foldl (evictChunk active) s) k = findChunk s k ∧
         (l.foldl (evictChunk active) s).chunkQueue.count k = s.chunkQueue.count k ∧
         (k ∈ (l.foldl (evictChunk active) s).pendingUpdates ↔
           k ∈ s.pendingUpdates)) ∧
      (∀ k, k ∉ active → k ∈ l →
         findChunk (l.foldl (evictChunk active) s) k = none ∧
         k ∉ (l.foldl (evictChunk active) s).pendingUpdates ∧
         (s.chunkQueue.count k ≤ 1 →
           k ∉ (l.foldl (evictChunk active) s).chunkQueue)) ∧
      (∀ k, k ∉ active → k ∉ l →
         findChunk (l.foldl (evictChunk active) s) k = findChunk s k) := by
  intro l
  induction l with
  | nil =>
    intro s _ _
    exact ⟨fun k _ => ⟨rfl, rfl, Iff.rfl⟩, fun k _ hk => absurd hk (by simp),
      fun k _ _ => rfl⟩
  | cons j t ih =>
    intro s hl hnd
    obtain ⟨hjt, hndt⟩ := List.nodup_cons.mp hnd
    by_cases hja : j ∈ active
    · have he : evictChunk active s j = s := by simp [evictChunk, hja]
      simp only [List.foldl_cons, he]
      obtain ⟨c1, c2, c3⟩ := ih s (fun k hk => hl k (List.mem_cons_of_mem j hk)) hndt
      refine ⟨c1, ?_, ?_⟩
      · intro k hka hkl
        rcases List.mem_cons.mp hkl with rfl | hkt
        · exact absurd hja hka
        · exact c2 k hka hkt
      · intro k hka hkl
        exact c3 k hka (fun hkt => hkl (List.mem_cons_of_mem j hkt))
    · have hjs : (findChunk s j).isSome = true := hl j (List.mem_cons_self j t)
      have he : evictChunk active s j = removeChunk s j := by simp [evictChunk, hja]
      simp only [List.foldl_cons, he]
      have hl2 : ∀ k ∈ t, (findChunk (removeChunk s j) k).isSome = true := by
        intro k hk
        have hne : k ≠ j := fun h2 => hjt (h2 ▸ hk)
        obtain ⟨hf, _, _, _⟩ := removeChunk_other s j k hne
        rw [hf]
        exact hl k (List.mem_cons_of_mem j hk)
      obtain ⟨c1, c2, c3⟩ := ih (removeChunk s j) hl2 hndt
      obtain ⟨rm1, rm2, rm3⟩ := removeChunk_self s j hjs
      refine ⟨?_, ?_, ?_⟩
      · intro k hka
        have hne : k ≠ j := fun h2 => hja (h2 ▸ hka)
        obtain ⟨hf, hq, hp, _⟩ := removeChunk_other s j k hne
        obtain ⟨d1, d2, d3⟩ := c1 k hka
        exact ⟨by rw [d1, hf], by rw [d2, hq], by rw [d3, hp]⟩
      · intro k hka hkl
        rcases List.mem_cons.mp hkl with heq | hkt
        · subst heq
          refine ⟨by rw [c3 k hka hjt]; exact rm1, ?_, ?_⟩
          · intro hmem
            exact rm2 ((evict_fold_subsets active t (removeChunk s k)).1 hmem)
          · intro hc hmem
            exact rm3 hc ((evict_fold_subsets active t (removeChunk s k)).2 hmem)
        · have hne : k ≠ j := fun h2 => hjt (h2 ▸ hkt)
          obtain ⟨hf, hq, hp, _⟩ := removeChunk_other s j k hne
          obtain ⟨d1, d2, d3⟩ := c2 k hka hkt
          exact ⟨d1, d2, fun hc => d3 (by rw [hq]; exact hc)⟩
      · intro k hka hkl
        have hne : k ≠ j := fun h2 => hkl (h2 ▸ List.mem_cons_self j t)
        obtain ⟨hf, _, _, _⟩ := removeChunk_other s j k hne
        rw [c3 k hka (fun hkt => hkl (List.mem_cons_of_mem j hkt)), hf]

end CM


/-- C6: after a focus update, the active chunk set equals exactly the
chunk-grid cells within Euclidean distance renderDistance of the focus
cell: every such cell that was absent is created with its first mesh
job enqueued, and every chunk outside the radius is evicted — its
queued job removed, its key removed from the chunk map and the pending
set. (Stated for an idle-pool manager so that enqueued jobs are
observable in the queue; `hq`/`hkeys` are the uniqueness invariants of
the source's Map/queue.) -/
theorem c6_setFocus_active_set (s : CM.MgrState) (c : CM.Key) (rd : ℕ)
    (hpool : s.workerPool = 0) (hq : s.chunkQueue.Nodup)
    (hkeys : (s.chunks.map (fun p => p.1)).Nodup) :
    (∀ k, ((CM.findChunk (CM.generateChunksAroundPosition s c rd) k).isSome = true) ↔
        CM.inBall c rd k) ∧
    (∀ k, CM.inBall c rd k → CM.findChunk s k = none →
        k ∈ (CM.generateChunksAroundPosition s c rd).chunkQueue) ∧
    (∀ k, ¬ CM.inBall c rd k →
        CM.findChunk (CM.generateChunksAroundPosition s c rd) k = none ∧
        ((CM.findChunk s k).isSome = true →
          k ∉ (CM.generateChunksAroundPosition s c rd).pendingUpdates ∧
          k ∉ (CM.generateChunksAroundPosition s c rd).chunkQueue)) := by
  have hgen : CM.generateChunksAroundPosition s c rd =
      (((CM.ballCells c rd).foldl CM.ensureChunk s).chunks.map (fun p => p.1)).foldl
        (CM.evictChunk (CM.ballCells c rd))
        ((CM.ballCells c rd).foldl CM.ensureChunk s) := rfl
  obtain ⟨e1, e2, e3, e4, e5, e6⟩ := CM.ensure_fold_spec (CM.ballCells c rd) s hpool
  have hl : ∀ k ∈ ((CM.ballCells c rd).foldl CM.ensureChunk s).chunks.map
      (fun p => p.1),
      (CM.findChunk ((CM.ballCells c rd).foldl CM.ensureChunk s) k).isSome = true :=
    fun k hk => (CM.findChunk_isSome_iff_mem_keys _ k).mpr hk
  have hlnd := e4 hkeys
  obtain ⟨v1, v2, v3⟩ := CM.evict_fold_spec (CM.ballCells c rd) _ _ hl hlnd
  refine ⟨?_, ?_, ?_⟩
  · intro k
    rw [hgen]
    by_cases hka : k ∈ CM.ballCells c rd
    · obtain ⟨d1, _, _⟩ := v1 k hka
      rw [d1]
      rw [e5 k]
      simp [hka, CM.mem_ballCells.mp hka]
    · have hnb : ¬ CM.inBall c rd k := fun hb => hka (CM.mem_ballCells.mpr hb)
      by_cases hkl : k ∈ ((CM.ballCells c rd).foldl CM.ensureChunk s).chunks.map
          (fun p => p.1)
      · obtain ⟨d1, _, _⟩ := v2 k hka hkl
        rw [d1]
        simp [hnb]
      · rw [v3 k hka hkl, CM.findChunk_eq_none_of_not_mem_keys _ k hkl]
        simp [hnb]
  · intro k hb hnone
    have hka : k ∈ CM.ballCells c rd := CM.mem_ballCells.mpr hb
    obtain ⟨_, d2, _⟩ := v1 k hka
    rw [hgen]
    have hcount : ((CM.ballCells c rd).foldl CM.ensureChunk s).chunkQueue.count k =
        s.chunkQueue.count k + 1 := by
      rw [e6 k]
      simp [hnone, hka]
    rw [← List.count_pos_iff]
    rw [d2, hcount]
    omega
  · intro k hnb
    have hka : k ∉ CM.ballCells c rd := fun hm => hnb (CM.mem_ballCells.mp hm)
    constructor
    · rw [hgen]
      by_cases hkl : k ∈ ((CM.ballCells c rd).foldl CM.ensureChunk s).chunks.map
          (fun p => p.1)
      · exact (v2 k hka hkl).1
      · rw [v3 k hka hkl]
        exact CM.findChunk_eq_none_of_not_mem_keys _ k hkl
    · intro hsome
      have hs1 : (CM.findChunk ((CM.ballCells c rd).foldl CM.ensureChunk s) k).isSome
          = true := by
        rw [e5 k]
        exact Or.inl hsome
      have hkl : k ∈ ((CM.ballCells c rd).foldl CM.ensureChunk s).chunks.map
          (fun p => p.1) := (CM.findChunk_isSome_iff_mem_keys _ k).mp hs1
      obtain ⟨_, d2, d3⟩ := v2 k hka hkl
      have hc1 : ((CM.ballCells c rd).foldl CM.ensureChunk s).chunkQueue.count k ≤ 1 := by
        rw [e6 k]
        simp only [hsome]
        simpa using CM.count_le_one_of_nodup hq k
      rw [hgen]
      exact ⟨d2, d3 hc1⟩


/-- C6 witness: from an empty idle manager, focusing the origin with
render distance 1 creates chunk (1,0,0) with a queued job. -/
theorem c6_setFocus_active_set_witness :
    ((CM.findChunk (CM.generateChunksAroundPosition
        ({ chunks := [], pendingUpdates := [], chunkQueue := [], inProgress := [],
           workerPool := 0 } : CM.MgrState) (0, 0, 0) 1) (1, 0, 0)).isSome = true) ∧
    (1, 0, 0) ∈ (CM.generateChunksAroundPosition
        ({ chunks := [], pendingUpdates := [], chunkQueue := [], inProgress := [],
           workerPool := 0 } : CM.MgrState) (0, 0, 0) 1).chunkQueue := by
  have h := c6_setFocus_active_set
    ({ chunks := [], pendingUpdates := [], chunkQueue := [], inProgress := [],
       workerPool := 0 } : CM.MgrState) (0, 0, 0) 1 rfl List.nodup_nil (by simp)
  exact ⟨(h.1 (1, 0, 0)).mpr (by decide), h.2.1 (1, 0, 0) (by decide) rfl⟩


namespace TC

theorem mem_brushCells {mnx mxx mny mxy mnz mxz : ℤ} {c : ℤ × ℤ × ℤ} :
    c ∈ brushCells mnx mxx mny mxy mnz mxz ↔
      (mnx ≤ c.1 ∧ c.1 ≤ mxx) ∧ (mny ≤ c.2.1 ∧ c.2.1 ≤ mxy) ∧
      (mnz ≤ c.2.2 ∧ c.2.2 ≤ mxz) := by
  unfold brushCells
  simp only [List.mem_flatMap, List.mem_map, mem_intRange]
  constructor
  · rintro ⟨z, hz, y, hy, x, hx, rfl⟩
    exact ⟨hx, hy, hz⟩
  · rintro ⟨hx, hy, hz⟩
    exact ⟨c.2.2, hz, c.2.1, hy, c.1, hx, rfl⟩

theorem brushCells_nodup (mnx mxx mny mxy mnz mxz : ℤ) :
    (brushCells mnx mxx mny mxy mnz mxz).Nodup := by
  unfold brushCells
  rw [List.nodup_flatMap]
  constructor
  · intro z _
    rw [List.nodup_flatMap]
    constructor
    · intro y _
      refine List.Nodup.map ?_ (nodup_intRange _ _)
      intro a b hab
      simpa using congrArg Prod.fst hab
    · refine List.Pairwise.imp ?_ (nodup_intRange mny mxy)
      intro y1 y2 hne
      simp only [List.disjoint_left, List.mem_map]
      rintro p ⟨x, _, rfl⟩ ⟨x2, _, hx2⟩
      exact hne (by simpa using (congrArg (fun q => q.2.1) hx2.symm))
  · refine List.Pairwise.imp ?_ (nodup_intRange mnz mxz)
    intro z1 z2 hne
    simp only [List.disjoint_left, List.mem_flatMap, List.mem_map]
    rintro p ⟨y, _, x, _, rfl⟩ ⟨y2, _, x2, _, hx2⟩
    exact hne (by simpa using (congrArg (fun q => q.2.2) hx2.symm))

theorem brushIdx_inj {res : ℕ} {c c2 : ℤ × ℤ × ℤ}
    (h1 : 0 ≤ c.1 ∧ c.1 < res) (h2 : 0 ≤ c.2.1 ∧ c.2.1 < res)
    (h3 : 0 ≤ c.2.2 ∧ c.2.2 < res)
    (h4 : 0 ≤ c2.1 ∧ c2.1 < res) (h5 : 0 ≤ c2.2.1 ∧ c2.2.1 < res)
    (h6 : 0 ≤ c2.2.2 ∧ c2.2.2 < res)
    (heq : brushIdx res c = brushIdx res c2) : c = c2 := by
  unfold brushIdx at heq
  obtain ⟨x, y, z⟩ := c
  obtain ⟨x2, y2, z2⟩ := c2
  simp only at heq h1 h2 h3 h4 h5 h6
  have hx : x = x2 := by
    have e1 : (x + (y * (res : ℤ) + z * res * res)) % res = x % res := by
      have : y * (res : ℤ) + z * res * res = (y + z * res) * res := by ring
      rw [this, Int.add_mul_emod_self]
    have e2 : (x2 + (y2 * (res : ℤ) + z2 * res * res)) % res = x2 % res := by
      have : y2 * (res : ℤ) + z2 * res * res = (y2 + z2 * res) * res := by ring
      rw [this, Int.add_mul_emod_self]
    have m1 : x % (res : ℤ) = x := Int.emod_eq_of_lt h1.1 h1.2
    have m2 : x2 % (res : ℤ) = x2 := Int.emod_eq_of_lt h4.1 h4.2
    rw [heq, e2, m2] at e1
    omega
  subst hx
  have heq2 : y + z * (res : ℤ) = y2 + z2 * res := by
    have hres : (0 : ℤ) < res := by omega
    have : (y * (res : ℤ) + z * res * res) = (y + z * res) * res := by ring
    have h2e : (y2 * (res : ℤ) + z2 * res * res) = (y2 + z2 * res) * res := by ring
    rw [this, h2e] at heq
    have hc := add_left_cancel heq
    exact Int.eq_of_mul_eq_mul_right (by omega) hc
  have hy : y = y2 := by
    have e1 : (y + z * (res : ℤ)) % res = y % res := Int.add_mul_emod_self
    have e2 : (y2 + z2 * (res : ℤ)) % res = y2 % res := Int.add_mul_emod_self
    have m1 : y % (res : ℤ) = y := Int.emod_eq_of_lt h2.1 h2.2
    have m2 : y2 % (res : ℤ) = y2 := Int.emod_eq_of_lt h5.1 h5.2
    rw [heq2, e2, m2] at e1
    omega
  subst hy
  have hz : z = z2 := by
    have hzz := add_left_cancel heq2
    exact mul_right_cancel₀ (by omega : (res : ℤ) ≠ 0) hzz
  subst hz
  rfl

end TC


namespace TC

theorem set_getD_self (l : List ℚ) (n : ℕ) : l.set n (l.getD n 0) = l := by
  induction l generalizing n with
  | nil => rfl
  | cons a t ih =>
    cases n with
    | zero => rfl
    | succ m =>
      simp only [List.set_cons_succ, List.getD_cons_succ]
      rw [ih m]

theorem brushStep_length (sq : ℚ → ℚ) (res : ℕ) (lx ly lz : ℤ) (r S : ℚ)
    (isAdding : Bool) (acc : Bool × List ℚ) (c : ℤ × ℤ × ℤ) :
    ((brushStep sq res lx ly lz r S isAdding acc c).2).length = acc.2.length := by
  simp only [brushStep]
  split
  · rfl
  · split
    · simp [List.length_set]
    · rfl

theorem brushFold_length (sq : ℚ → ℚ) (res : ℕ) (lx ly lz : ℤ) (r S : ℚ)
    (isAdding : Bool) :
    ∀ (cells : List (ℤ × ℤ × ℤ)) (acc : Bool × List ℚ),
      ((cells.foldl (brushStep sq res lx ly lz r S isAdding) acc).2).length =
        acc.2.length := by
  intro cells
  induction cells with
  | nil => intro acc; rfl
  | cons c t ih =>
    intro acc
    rw [List.foldl_cons, ih, brushStep_length]

theorem brushStep_flag (sq : ℚ → ℚ) (res : ℕ) (lx ly lz : ℤ) (r S : ℚ)
    (isAdding : Bool) (acc : Bool × List ℚ) (c : ℤ × ℤ × ℤ) :
    ((brushStep sq res lx ly lz r S isAdding acc c).1 = true ↔
      (acc.1 = true ∨ brushHit res acc.2.length lx ly lz r c)) := by
  unfold brushStep brushHit
  by_cases h1 : r * r < cellDistSq lx ly lz c
  · rw [if_pos h1]
    constructor
    · exact fun h => Or.inl h
    · rintro (h | h)
      · exact h
      · exact absurd h.1 (not_le.mpr h1)
  · rw [if_neg h1]
    by_cases h2 : 0 ≤ brushIdx res c ∧ brushIdx res c < (acc.2.length : ℤ)
    · rw [if_pos h2]
      constructor
      · intro _
        exact Or.inr ⟨not_lt.mp h1, h2⟩
      · intro _
        rfl
    · rw [if_neg h2]
      constructor
      · exact fun h => Or.inl h
      · rintro (h | h)
        · exact h
        · exact absurd h.2 h2

theorem brushFold_flag (sq : ℚ → ℚ) (res : ℕ) (lx ly lz : ℤ) (r S : ℚ)
    (isAdding : Bool) :
    ∀ (cells : List (ℤ × ℤ × ℤ)) (acc : Bool × List ℚ),
      ((cells.foldl (brushStep sq res lx ly lz r S isAdding) acc).1 = true ↔
        (acc.1 = true ∨ ∃ c ∈ cells, brushHit res acc.2.length lx ly lz r c)) := by
  intro cells
  induction cells with
  | nil => intro acc; simp
  | cons c t ih =>
    intro acc
    rw [List.foldl_cons, ih, brushStep_flag]
    rw [brushStep_length]
    constructor
    · rintro ((h | h) | ⟨c2, hc2, hh⟩)
      · exact Or.inl h
      · exact Or.inr ⟨c, List.mem_cons_self c t, h⟩
      · exact Or.inr ⟨c2, List.mem_cons_of_mem c hc2, hh⟩
    · rintro (h | ⟨c2, hc2, hh⟩)
      · exact Or.inl (Or.inl h)
      · rcases List.mem_cons.mp hc2 with rfl | hct
        · exact Or.inl (Or.inr hh)
        · exact Or.inr ⟨c2, hct, hh⟩

end TC


namespace TC

theorem set_getElem?_self (l : List ℚ) (n : ℕ) : l.set n ((l[n]?).getD 0) = l := by
  induction l generalizing n with
  | nil => rfl
  | cons a t ih =>
    cases n with
    | zero => simp
    | succ k =>
      simp only [List.set_cons_succ, List.getElem?_cons_succ]
      rw [ih k]

theorem getD_set_ne (l : List ℚ) (m n : ℕ) (v : ℚ) (h : m ≠ n) :
    (l.set m v).getD n 0 = l.getD n 0 := by
  induction l generalizing m n with
  | nil => rfl
  | cons a t ih =>
    cases m with
    | zero =>
      cases n with
      | zero => exact absurd rfl h
      | succ k => rfl
    | succ m2 =>
      cases n with
      | zero => rfl
      | succ k =>
        simp only [List.set_cons_succ, List.getD_cons_succ]
        exact ih m2 k (fun h2 => h (by rw [h2]))

theorem getD_set_self (l : List ℚ) (n : ℕ) (v : ℚ) (h : n < l.length) :
    (l.set n v).getD n 0 = v := by
  induction l generalizing n with
  | nil => simp at h
  | cons a t ih =>
    cases n with
    | zero => rfl
    | succ k =>
      simp only [List.set_cons_succ, List.getD_cons_succ]
      exact ih k (by simpa using h)

theorem brushStep_getD_ne (sq : ℚ → ℚ) (res : ℕ) (lx ly lz : ℤ) (r S : ℚ)
    (isAdding : Bool) (acc : Bool × List ℚ) (c : ℤ × ℤ × ℤ) (t : ℕ)
    (hne : brushIdx res c ≠ (t : ℤ)) :
    (brushStep sq res lx ly lz r S isAdding acc c).2.getD t 0 =
      acc.2.getD t 0 := by
  simp only [brushStep]
  split
  · rfl
  · split
    · next h2 =>
      have hnat : (brushIdx res c).toNat ≠ t := by omega
      exact getD_set_ne _ _ _ _ hnat
    · rfl

theorem brushStep_zero_strength (sq : ℚ → ℚ) (res : ℕ) (lx ly lz : ℤ) (r : ℚ)
    (isAdding : Bool) (acc : Bool × List ℚ) (c : ℤ × ℤ × ℤ) :
    (brushStep sq res lx ly lz r 0 isAdding acc c).2 = acc.2 := by
  simp only [brushStep]
  split
  · rfl
  · split
    · simp only [zero_mul, neg_zero, add_zero]
      cases isAdding <;> simp [set_getElem?_self]
    · rfl

theorem brushStep_getD_far (sq : ℚ → ℚ) (res : ℕ) (lx ly lz : ℤ) (r S : ℚ)
    (isAdding : Bool) (acc : Bool × List ℚ) (c : ℤ × ℤ × ℤ)
    (hfar : r * r ≤ cellDistSq lx ly lz c)
    (hone : 1 ≤ cellDistSq lx ly lz c)
    (hr : 0 < r)
    (hs : r ≤ sq (cellDistSq lx ly lz c)) :
    (brushStep sq res lx ly lz r S isAdding acc c).2 = acc.2 := by
  simp only [brushStep]
  by_cases h1 : r * r < cellDistSq lx ly lz c
  · rw [if_pos h1]
  · rw [if_neg h1]
    have hd : ¬ (cellDistSq lx ly lz c < 1 / 10000) := by
      intro hlt
      linarith
    rw [if_neg hd]
    have hdiv : 1 ≤ sq (cellDistSq lx ly lz c) / r := (one_le_div hr).mpr hs
    have hmin : min 1 (sq (cellDistSq lx ly lz c) / r) = 1 := min_eq_left hdiv
    rw [hmin]
    simp only [sub_self, mul_zero, zero_mul, neg_zero, add_zero]
    split
    · cases isAdding <;> simp [set_getElem?_self]
    · rfl

theorem brushStep_getD_center (sq : ℚ → ℚ) (res : ℕ) (lx ly lz : ℤ) (r S : ℚ)
    (isAdding : Bool) (acc : Bool × List ℚ)
    (hidx : 0 ≤ brushIdx res (lx, ly, lz) ∧
      brushIdx res (lx, ly, lz) < (acc.2.length : ℤ))
    (hr : 0 < r) :
    (brushStep sq res lx ly lz r S isAdding acc (lx, ly, lz)).2.getD
        (brushIdx res (lx, ly, lz)).toNat 0 =
      acc.2.getD (brushIdx res (lx, ly, lz)).toNat 0 +
        (if isAdding then -S else S) := by
  have hd0 : cellDistSq lx ly lz (lx, ly, lz) = 0 := by
    simp [cellDistSq]
  simp only [brushStep, hd0]
  have h1 : ¬ (r * r < 0) := not_lt.mpr (mul_self_nonneg r)
  rw [if_neg h1, if_pos hidx]
  rw [if_pos (by norm_num : (0 : ℚ) < 1 / 10000)]
  have hmin : (1 : ℚ) ⊓ (0 / r) = 0 := by
    rw [zero_div]
    exact min_eq_right (by norm_num)
  rw [hmin]
  have hlt : (brushIdx res (lx, ly, lz)).toNat < acc.2.length := by omega
  rw [getD_set_self _ _ _ hlt]
  cases isAdding <;> norm_num

end TC


namespace TC

theorem brushFold_getD_preserve (sq : ℚ → ℚ) (res : ℕ) (lx ly lz : ℤ) (r S : ℚ)
    (isAdding : Bool) (t : ℕ) :
    ∀ (cells : List (ℤ × ℤ × ℤ)) (acc : Bool × List ℚ),
      (∀ c ∈ cells, ∀ (a : Bool × List ℚ), a.2.length = acc.2.length →
        (brushStep sq res lx ly lz r S isAdding a c).2.getD t 0 = a.2.getD t 0) →
      (cells.foldl (brushStep sq res lx ly lz r S isAdding) acc).2.getD t 0 =
        acc.2.getD t 0 := by
  intro cells
  induction cells with
  | nil => intro acc _; rfl
  | cons c cs ih =>
    intro acc hpre
    rw [List.foldl_cons]
    rw [ih (brushStep sq res lx ly lz r S isAdding acc c)
      (fun c2 hc2 a ha =>
        hpre c2 (List.mem_cons_of_mem c hc2) a
          (by rw [ha, brushStep_length]))]
    exact hpre c (List.mem_cons_self c cs) acc rfl

theorem cellDistSq_cast (lx ly lz : ℤ) (c : ℤ × ℤ × ℤ) :
    cellDistSq lx ly lz c =
      (((c.1 - lx) * (c.1 - lx) + (c.2.1 - ly) * (c.2.1 - ly) +
        (c.2.2 - lz) * (c.2.2 - lz) : ℤ) : ℚ) := by
  unfold cellDistSq
  push_cast
  ring

theorem one_le_cellDistSq_of_ne (lx ly lz : ℤ) (c : ℤ × ℤ × ℤ)
    (h : c ≠ (lx, ly, lz)) : 1 ≤ cellDistSq lx ly lz c := by
  rw [cellDistSq_cast]
  have h1 : (1 : ℤ) ≤ (c.1 - lx) * (c.1 - lx) + (c.2.1 - ly) * (c.2.1 - ly) +
      (c.2.2 - lz) * (c.2.2 - lz) := by
    have hne : c.1 ≠ lx ∨ c.2.1 ≠ ly ∨ c.2.2 ≠ lz := by
      by_contra hall
      push_neg at hall
      exact h (by
        obtain ⟨e1, e2, e3⟩ := hall
        obtain ⟨a, b, d⟩ := c
        simp only at e1 e2 e3
        simp [e1, e2, e3])
    have s1 : 0 ≤ (c.1 - lx) * (c.1 - lx) := mul_self_nonneg _
    have s2 : 0 ≤ (c.2.1 - ly) * (c.2.1 - ly) := mul_self_nonneg _
    have s3 : 0 ≤ (c.2.2 - lz) * (c.2.2 - lz) := mul_self_nonneg _
    rcases hne with hd | hd | hd
    · have : 1 ≤ (c.1 - lx) * (c.1 - lx) := by
        rcases (by omega : 1 ≤ c.1 - lx ∨ c.1 - lx ≤ -1) with hx | hx <;> nlinarith
      omega
    · have : 1 ≤ (c.2.1 - ly) * (c.2.1 - ly) := by
        rcases (by omega : 1 ≤ c.2.1 - ly ∨ c.2.1 - ly ≤ -1) with hx | hx <;> nlinarith
      omega
    · have : 1 ≤ (c.2.2 - lz) * (c.2.2 - lz) := by
        rcases (by omega : 1 ≤ c.2.2 - lz ∨ c.2.2 - lz ≤ -1) with hx | hx <;> nlinarith
      omega
  exact_mod_cast h1

theorem brushIdx_range {res : ℕ} {c : ℤ × ℤ × ℤ}
    (h1 : 0 ≤ c.1 ∧ c.1 ≤ (res : ℤ) - 1) (h2 : 0 ≤ c.2.1 ∧ c.2.1 ≤ (res : ℤ) - 1)
    (h3 : 0 ≤ c.2.2 ∧ c.2.2 ≤ (res : ℤ) - 1) :
    0 ≤ brushIdx res c ∧ brushIdx res c < (res : ℤ) * res * res := by
  unfold brushIdx
  have hr : (0 : ℤ) ≤ (res : ℤ) := Int.natCast_nonneg res
  have hy : c.2.1 * (res : ℤ) ≤ ((res : ℤ) - 1) * res :=
    mul_le_mul_of_nonneg_right h2.2 hr
  have hz : c.2.2 * (res : ℤ) * res ≤ ((res : ℤ) - 1) * res * res := by
    have := mul_le_mul_of_nonneg_right h3.2 hr
    exact mul_le_mul_of_nonneg_right this hr
  have hy0 : 0 ≤ c.2.1 * (res : ℤ) := mul_nonneg h2.1 hr
  have hz0 : 0 ≤ c.2.2 * (res : ℤ) * res := mul_nonneg (mul_nonneg h3.1 hr) hr
  constructor
  · omega
  · nlinarith [h1.2, hy, hz]

theorem mem_brushCellList {o : TCOpts} {lp : ℤ × ℤ × ℤ} {rc : ℤ} {c : ℤ × ℤ × ℤ} :
    c ∈ brushCellList o lp rc ↔
      (max 0 (lp.1 - rc) ≤ c.1 ∧ c.1 ≤ min ((o.resolution : ℤ) - 1) (lp.1 + rc)) ∧
      (max 0 (lp.2.1 - rc) ≤ c.2.1 ∧
        c.2.1 ≤ min ((o.resolution : ℤ) - 1) (lp.2.1 + rc)) ∧
      (max 0 (lp.2.2 - rc) ≤ c.2.2 ∧
        c.2.2 ≤ min ((o.resolution : ℤ) - 1) (lp.2.2 + rc)) := by
  unfold brushCellList
  exact mem_brushCells

theorem brushCellList_nodup (o : TCOpts) (lp : ℤ × ℤ × ℤ) (rc : ℤ) :
    (brushCellList o lp rc).Nodup := by
  unfold brushCellList
  exact brushCells_nodup _ _ _ _ _ _

end TC


namespace TC

theorem worldToLocal_exact (b : TCBounds) (res : ℕ) (wx wy wz : ℚ)
    (lx ly lz : ℤ)
    (hlx : (wx - b.minX) / (b.maxX - b.minX) * ((res : ℚ) - 1) = (lx : ℚ))
    (hly : (wy - b.minY) / (b.maxY - b.minY) * ((res : ℚ) - 1) = (ly : ℚ))
    (hlz : (wz - b.minZ) / (b.maxZ - b.minZ) * ((res : ℚ) - 1) = (lz : ℚ)) :
    worldToLocalPosition b res wx wy wz = (lx, ly, lz) := by
  unfold worldToLocalPosition
  rw [hlx, hly, hlz]
  simp [Int.floor_intCast]

theorem modifyTerrain_contained (sq : ℚ → ℚ) (o : TCOpts) (field : List ℚ)
    (dr : Option Box) (dirty : Bool) (wx wy wz bs S : ℚ) (isAdding : Bool)
    (hcont : containsPosition (calculateChunkBounds o) wx wy wz = true) :
    (modifyTerrain sq o field dr dirty wx wy wz bs S isAdding).field =
      ((brushCellList o
          (worldToLocalPosition (calculateChunkBounds o) o.resolution wx wy wz)
          ⌈brushR o bs⌉).foldl
        (brushStep sq o.resolution
          (worldToLocalPosition (calculateChunkBounds o) o.resolution wx wy wz).1
          (worldToLocalPosition (calculateChunkBounds o) o.resolution wx wy wz).2.1
          (worldToLocalPosition (calculateChunkBounds o) o.resolution wx wy wz).2.2
          (brushR o bs) S isAdding) (false, field)).2 ∧
    (modifyTerrain sq o field dr dirty wx wy wz bs S isAdding).modified =
      ((brushCellList o
          (worldToLocalPosition (calculateChunkBounds o) o.resolution wx wy wz)
          ⌈brushR o bs⌉).foldl
        (brushStep sq o.resolution
          (worldToLocalPosition (calculateChunkBounds o) o.resolution wx wy wz).1
          (worldToLocalPosition (calculateChunkBounds o) o.resolution wx wy wz).2.1
          (worldToLocalPosition (calculateChunkBounds o) o.resolution wx wy wz).2.2
          (brushR o bs) S isAdding) (false, field)).1 := by
  simp only [modifyTerrain, hcont, Bool.true_eq_false, if_false]
  refine ⟨?_, ?_⟩ <;> first | rfl | trivial

end TC

/-- C9: a brush edit of strength S whose world position maps exactly to
the grid cell (lx, ly, lz) changes that cell's density by exactly S —
subtracted when adding terrain, added when removing — while every
in-range cell at grid distance at or beyond the brush radius keeps its
value (falloff is clamped to 0 there). `sq` abstracts `Math.sqrt`; the
hypothesis `hsq` is the square-root monotonicity fact the code relies
on. -/
theorem c9_brush_center_exact_strength
    (sq : ℚ → ℚ) (o : TC.TCOpts) (field : List ℚ) (dr : Option TC.Box)
    (dirty : Bool) (wx wy wz bs S : ℚ) (isAdding : Bool) (lx ly lz : ℤ)
    (hcont : TC.containsPosition (TC.calculateChunkBounds o) wx wy wz = true)
    (hlx : (wx - (TC.calculateChunkBounds o).minX) /
        ((TC.calculateChunkBounds o).maxX - (TC.calculateChunkBounds o).minX) *
        ((o.resolution : ℚ) - 1) = (lx : ℚ))
    (hly : (wy - (TC.calculateChunkBounds o).minY) /
        ((TC.calculateChunkBounds o).maxY - (TC.calculateChunkBounds o).minY) *
        ((o.resolution : ℚ) - 1) = (ly : ℚ))
    (hlz : (wz - (TC.calculateChunkBounds o).minZ) /
        ((TC.calculateChunkBounds o).maxZ - (TC.calculateChunkBounds o).minZ) *
        ((o.resolution : ℚ) - 1) = (lz : ℚ))
    (hlen : field.length = o.resolution * o.resolution * o.resolution)
    (hbx : 0 ≤ lx ∧ lx ≤ (o.resolution : ℤ) - 1)
    (hby : 0 ≤ ly ∧ ly ≤ (o.resolution : ℤ) - 1)
    (hbz : 0 ≤ lz ∧ lz ≤ (o.resolution : ℤ) - 1)
    (hr : 0 < TC.brushR o bs)
    (hsq : ∀ q : ℚ, TC.brushR o bs * TC.brushR o bs ≤ q → TC.brushR o bs ≤ sq q) :
    ((TC.modifyTerrain sq o field dr dirty wx wy wz bs S isAdding).field.getD
        (TC.brushIdx o.resolution (lx, ly, lz)).toNat 0 =
      field.getD (TC.brushIdx o.resolution (lx, ly, lz)).toNat 0 +
        (if isAdding then -S else S)) ∧
    (∀ cf : ℤ × ℤ × ℤ,
      0 ≤ cf.1 ∧ cf.1 ≤ (o.resolution : ℤ) - 1 →
      0 ≤ cf.2.1 ∧ cf.2.1 ≤ (o.resolution : ℤ) - 1 →
      0 ≤ cf.2.2 ∧ cf.2.2 ≤ (o.resolution : ℤ) - 1 →
      TC.brushR o bs * TC.brushR o bs ≤ TC.cellDistSq lx ly lz cf →
      (TC.modifyTerrain sq o field dr dirty wx wy wz bs S isAdding).field.getD
          (TC.brushIdx o.resolution cf).toNat 0 =
        field.getD (TC.brushIdx o.resolution cf).toNat 0) := by
  have hlp := TC.worldToLocal_exact (TC.calculateChunkBounds o) o.resolution
    wx wy wz lx ly lz hlx hly hlz
  obtain ⟨hfield, _⟩ := TC.modifyTerrain_contained sq o field dr dirty
    wx wy wz bs S isAdding hcont
  rw [hlp] at hfield
  have hrc : 1 ≤ ⌈TC.brushR o bs⌉ := by
    have := Int.ceil_pos.mpr hr
    omega
  have hcellsB : ∀ c ∈ TC.brushCellList o (lx, ly, lz) ⌈TC.brushR o bs⌉,
      (0 ≤ c.1 ∧ c.1 ≤ (o.resolution : ℤ) - 1) ∧
      (0 ≤ c.2.1 ∧ c.2.1 ≤ (o.resolution : ℤ) - 1) ∧
      (0 ≤ c.2.2 ∧ c.2.2 ≤ (o.resolution : ℤ) - 1) := by
    intro c hc
    obtain ⟨h1, h2, h3⟩ := TC.mem_brushCellList.mp hc
    omega
  have hctrIdx := @TC.brushIdx_range o.resolution (lx, ly, lz) hbx hby hbz
  have hctrNonneg : (((TC.brushIdx o.resolution (lx, ly, lz)).toNat : ℤ)) =
      TC.brushIdx o.resolution (lx, ly, lz) := Int.toNat_of_nonneg hctrIdx.1
  constructor
  · -- center cell
    have hctr_mem : (lx, ly, lz) ∈
        TC.brushCellList o (lx, ly, lz) ⌈TC.brushR o bs⌉ := by
      rw [TC.mem_brushCellList]
      refine ⟨⟨?_, ?_⟩, ⟨?_, ?_⟩, ⟨?_, ?_⟩⟩ <;> simp only <;> omega
    obtain ⟨u, v, hsplit⟩ := List.append_of_mem hctr_mem
    have hnd := TC.brushCellList_nodup o (lx, ly, lz) ⌈TC.brushR o bs⌉
    rw [hsplit] at hnd
    rw [List.nodup_append] at hnd
    obtain ⟨hndu, hndcv, hdisj⟩ := hnd
    have hctr_nv : (lx, ly, lz) ∉ v := (List.nodup_cons.mp hndcv).1
    have hctr_nu : (lx, ly, lz) ∉ u := fun hm =>
      hdisj hm (List.mem_cons_self _ v)
    rw [hfield, hsplit, List.foldl_append, List.foldl_cons]
    have hlen1 : ((u.foldl (TC.brushStep sq o.resolution lx ly lz
        (TC.brushR o bs) S isAdding) (false, field)).2).length = field.length :=
      TC.brushFold_length _ _ _ _ _ _ _ _ _ _
    -- the cells of u and v write other indices
    have hotherIdx : ∀ c, c ∈ u ∨ c ∈ v → TC.brushIdx o.resolution c ≠
        ((TC.brushIdx o.resolution (lx, ly, lz)).toNat : ℤ) := by
      intro c hc
      have hcm : c ∈ TC.brushCellList o (lx, ly, lz) ⌈TC.brushR o bs⌉ := by
        rw [hsplit]
        rcases hc with hc | hc
        · exact List.mem_append_left _ hc
        · exact List.mem_append_right _ (List.mem_cons_of_mem _ hc)
      have hcb := hcellsB c hcm
      have hne : c ≠ (lx, ly, lz) := by
        rintro rfl
        rcases hc with hc | hc
        · exact hctr_nu hc
        · exact hctr_nv hc
      rw [hctrNonneg]
      intro heq
      exact hne (@TC.brushIdx_inj o.resolution c (lx, ly, lz)
        ⟨hcb.1.1, by omega⟩ ⟨hcb.2.1.1, by omega⟩ ⟨hcb.2.2.1, by omega⟩
        ⟨hbx.1, by dsimp only; omega⟩ ⟨hby.1, by dsimp only; omega⟩
        ⟨hbz.1, by dsimp only; omega⟩ heq)
    rw [TC.brushFold_getD_preserve sq o.resolution lx ly lz (TC.brushR o bs) S
      isAdding _ v _ (fun c hc a _ =>
        TC.brushStep_getD_ne _ _ _ _ _ _ _ _ _ _ _ (hotherIdx c (Or.inr hc)))]
    have hidx1 : 0 ≤ TC.brushIdx o.resolution (lx, ly, lz) ∧
        TC.brushIdx o.resolution (lx, ly, lz) <
          (((u.foldl (TC.brushStep sq o.resolution lx ly lz
            (TC.brushR o bs) S isAdding) (false, field)).2).length : ℤ) := by
      rw [hlen1, hlen]
      refine ⟨hctrIdx.1, ?_⟩
      have := hctrIdx.2
      push_cast
      omega
    rw [TC.brushStep_getD_center sq o.resolution lx ly lz (TC.brushR o bs) S
      isAdding _ hidx1 hr]
    rw [TC.brushFold_getD_preserve sq o.resolution lx ly lz (TC.brushR o bs) S
      isAdding _ u _ (fun c hc a _ =>
        TC.brushStep_getD_ne _ _ _ _ _ _ _ _ _ _ _ (hotherIdx c (Or.inl hc)))]
  · -- far cells
    intro cf hfx hfy hfz hfar
    have hfIdx := TC.brushIdx_range hfx hfy hfz
    have hfNonneg : (((TC.brushIdx o.resolution cf).toNat : ℤ)) =
        TC.brushIdx o.resolution cf := Int.toNat_of_nonneg hfIdx.1
    have hcf_ne : cf ≠ (lx, ly, lz) := by
      rintro rfl
      have h0 : TC.cellDistSq lx ly lz (lx, ly, lz) = 0 := by
        simp [TC.cellDistSq]
      rw [h0] at hfar
      nlinarith
    rw [hfield]
    apply TC.brushFold_getD_preserve
    intro c hc a _
    by_cases hceq : c = cf
    · subst hceq
      rw [TC.brushStep_getD_far sq o.resolution lx ly lz (TC.brushR o bs) S
        isAdding a c hfar (TC.one_le_cellDistSq_of_ne lx ly lz c hcf_ne) hr
        (hsq _ hfar)]
    · have hcb := hcellsB c hc
      refine TC.brushStep_getD_ne _ _ _ _ _ _ _ _ _ _ _ ?_
      rw [hfNonneg]
      intro heq
      exact hceq (TC.brushIdx_inj
        ⟨hcb.1.1, by omega⟩ ⟨hcb.2.1.1, by omega⟩ ⟨hcb.2.2.1, by omega⟩
        ⟨hfx.1, by omega⟩ ⟨hfy.1, by omega⟩ ⟨hfz.1, by omega⟩ heq)


/-- C9 witness: resolution-3 chunk over [-1,1]^3, brush of world radius
1 and strength 5 at the exact center cell (1,1,1): that cell's density
drops by exactly 5. -/
theorem c9_brush_center_exact_strength_witness :
    (TC.modifyTerrain (fun q => if 1 ≤ q then (1 : ℚ) else 0)
        { resolution := 3, size := 2, posX := 0, posY := 0, posZ := 0 }
        (List.replicate 27 (0 : ℚ)) none false 0 0 0 1 5 true).field.getD 13 0 =
      -5 := by
  have hbr : TC.brushR
      { resolution := 3, size := 2, posX := 0, posY := 0, posZ := 0 } 1 = 1 := by
    norm_num [TC.brushR, TC.calculateChunkBounds]
  have h := c9_brush_center_exact_strength (fun q => if 1 ≤ q then (1 : ℚ) else 0)
      { resolution := 3, size := 2, posX := 0, posY := 0, posZ := 0 }
      (List.replicate 27 (0 : ℚ)) none false 0 0 0 1 5 true 1 1 1
      (by norm_num [TC.containsPosition, TC.calculateChunkBounds])
      (by norm_num [TC.calculateChunkBounds])
      (by norm_num [TC.calculateChunkBounds])
      (by norm_num [TC.calculateChunkBounds])
      (by simp)
      (by norm_num) (by norm_num) (by norm_num)
      (by rw [hbr]; norm_num)
      (by
        rw [hbr]
        intro q hq
        simp only
        rw [if_pos (by linarith)])
  have hidx : (TC.brushIdx
      ({ resolution := 3, size := 2, posX := 0, posY := 0, posZ := 0 } :
        TC.TCOpts).resolution ((1 : ℤ), (1 : ℤ), (1 : ℤ))).toNat = 13 := by
    decide
  rw [hidx] at h
  have h1 := h.1
  have hgd : (List.replicate 27 (0 : ℚ)).getD 13 0 = 0 := by
    simp
  rw [hgd] at h1
  rw [h1]
  norm_num


namespace TC

theorem brushFold_zero_strength (sq : ℚ → ℚ) (res : ℕ) (lx ly lz : ℤ) (r : ℚ)
    (isAdding : Bool) :
    ∀ (cells : List (ℤ × ℤ × ℤ)) (acc : Bool × List ℚ),
      (cells.foldl (brushStep sq res lx ly lz r 0 isAdding) acc).2 = acc.2 := by
  intro cells
  induction cells with
  | nil => intro acc; rfl
  | cons c cs ih =>
    intro acc
    rw [List.foldl_cons, ih]
    have h := brushStep_zero_strength sq res lx ly lz r isAdding acc c
    cases hstep : brushStep sq res lx ly lz r 0 isAdding acc c with
    | mk b f =>
      rw [hstep] at h
      exact h

end TC

/-- C5 (amended): when the edit position lies outside the chunk bounds,
`modifyTerrain` is a no-op returning `false` with the field, dirty
region and dirty flag unchanged (no error); when the position is
inside, the returned flag reports whether the brush loop touched at
least one in-range cell within the radius — which does not imply any
density value actually changed (e.g. zero-strength edits). -/
theorem c5_modifyTerrain_modified_spec (sq : ℚ → ℚ) (o : TC.TCOpts)
    (field : List ℚ) (dr : Option TC.Box) (dirty : Bool)
    (wx wy wz bs S : ℚ) (isAdding : Bool) :
    (TC.containsPosition (TC.calculateChunkBounds o) wx wy wz = false →
      TC.modifyTerrain sq o field dr dirty wx wy wz bs S isAdding =
        { modified := false, field := field, dirtyRegion := dr,
          isDirty := dirty }) ∧
    (TC.containsPosition (TC.calculateChunkBounds o) wx wy wz = true →
      ((TC.modifyTerrain sq o field dr dirty wx wy wz bs S isAdding).modified
          = true ↔
        ∃ c ∈ TC.brushCellList o
            (TC.worldToLocalPosition (TC.calculateChunkBounds o) o.resolution
              wx wy wz) ⌈TC.brushR o bs⌉,
          TC.brushHit o.resolution field.length
            (TC.worldToLocalPosition (TC.calculateChunkBounds o) o.resolution
              wx wy wz).1
            (TC.worldToLocalPosition (TC.calculateChunkBounds o) o.resolution
              wx wy wz).2.1
            (TC.worldToLocalPosition (TC.calculateChunkBounds o) o.resolution
              wx wy wz).2.2
            (TC.brushR o bs) c)) := by
  constructor
  · intro h
    simp [TC.modifyTerrain, h]
  · intro h
    obtain ⟨_, hmod⟩ := TC.modifyTerrain_contained sq o field dr dirty
      wx wy wz bs S isAdding h
    rw [hmod]
    rw [TC.brushFold_flag]
    simp

/-- C5 (counterexample): a zero-strength brush edit at a contained
position returns `modified = true` while every density value is
unchanged, refuting "returns true iff at least one cell's value
actually changed". -/
theorem c5_modified_without_change :
    (TC.modifyTerrain (fun _ => (0 : ℚ))
        { resolution := 3, size := 2, posX := 0, posY := 0, posZ := 0 }
        (List.replicate 27 (0 : ℚ)) none false 0 0 0 1 0 true).modified = true ∧
    (TC.modifyTerrain (fun _ => (0 : ℚ))
        { resolution := 3, size := 2, posX := 0, posY := 0, posZ := 0 }
        (List.replicate 27 (0 : ℚ)) none false 0 0 0 1 0 true).field =
      List.replicate 27 (0 : ℚ) := by
  have hcont : TC.containsPosition (TC.calculateChunkBounds
      { resolution := 3, size := 2, posX := 0, posY := 0, posZ := 0 })
      0 0 0 = true := by
    norm_num [TC.containsPosition, TC.calculateChunkBounds]
  have hlp : TC.worldToLocalPosition (TC.calculateChunkBounds
      { resolution := 3, size := 2, posX := 0, posY := 0, posZ := 0 })
      ({ resolution := 3, size := 2, posX := 0, posY := 0, posZ := 0 } :
        TC.TCOpts).resolution 0 0 0 = (1, 1, 1) :=
    TC.worldToLocal_exact _ _ _ _ _ 1 1 1
      (by norm_num [TC.calculateChunkBounds])
      (by norm_num [TC.calculateChunkBounds])
      (by norm_num [TC.calculateChunkBounds])
  have hbr : TC.brushR
      { resolution := 3, size := 2, posX := 0, posY := 0, posZ := 0 } 1 = 1 := by
    norm_num [TC.brushR, TC.calculateChunkBounds]
  obtain ⟨hfield, hmod⟩ := TC.modifyTerrain_contained (fun _ => (0 : ℚ))
    { resolution := 3, size := 2, posX := 0, posY := 0, posZ := 0 }
    (List.replicate 27 (0 : ℚ)) none false 0 0 0 1 0 true hcont
  constructor
  · rw [hmod, TC.brushFold_flag]
    refine Or.inr ⟨(1, 1, 1), ?_, ?_⟩
    · rw [hlp, hbr]
      rw [TC.mem_brushCellList]
      have hc1 : ⌈(1 : ℚ)⌉ = 1 := by norm_num
      rw [hc1]
      refine ⟨⟨?_, ?_⟩, ⟨?_, ?_⟩, ⟨?_, ?_⟩⟩ <;> simp
    · rw [hlp, hbr]
      constructor
      · have : TC.cellDistSq 1 1 1 (1, 1, 1) = 0 := by
          simp [TC.cellDistSq]
        rw [this]
        norm_num
      · constructor
        · decide
        · simp only [List.length_replicate]
          decide
  · rw [hfield, TC.brushFold_zero_strength]

theorem c5_modifyTerrain_modified_spec_witness :
    TC.modifyTerrain (fun _ => (0 : ℚ))
        { resolution := 3, size := 2, posX := 0, posY := 0, posZ := 0 }
        (List.replicate 27 (0 : ℚ)) none false 5 5 5 1 1 true =
      { modified := false, field := List.replicate 27 (0 : ℚ),
        dirtyRegion := none, isDirty := false } :=
  (c5_modifyTerrain_modified_spec (fun _ => (0 : ℚ))
      { resolution := 3, size := 2, posX := 0, posY := 0, posZ := 0 }
      (List.replicate 27 (0 : ℚ)) none false 5 5 5 1 1 true).1
    (by norm_num [TC.containsPosition, TC.calculateChunkBounds])

/-- C8: for a surface-crossing edge with corner values v1 and v2, the
interpolation parameter is (iso - v1)/(v2 - v1) clamped to
[1/1000, 999/1000] whenever |v1 - v2| exceeds the 1/100000 threshold;
at or below the threshold no division happens and t falls back to 1/2;
in all cases t lies in [1/1000, 999/1000], hence strictly inside
(0, 1). -/
theorem c8_interpolation_param_spec (iso v1 v2 : ℚ) :
    (1 / 100000 < |v1 - v2| →
      MC.interpolateT iso v1 v2 =
        max (1 / 1000) (min (999 / 1000) ((iso - v1) / (v2 - v1)))) ∧
    (|v1 - v2| ≤ 1 / 100000 → MC.interpolateT iso v1 v2 = 1 / 2) ∧
    1 / 1000 ≤ MC.interpolateT iso v1 v2 ∧
    MC.interpolateT iso v1 v2 ≤ 999 / 1000 ∧
    0 < MC.interpolateT iso v1 v2 ∧ MC.interpolateT iso v1 v2 < 1 := by
  unfold MC.interpolateT
  by_cases h : (1 : ℚ) / 100000 < |v1 - v2|
  · rw [if_pos h]
    have hlo : (1 : ℚ) / 1000 ≤
        max (1 / 1000) (min (999 / 1000) ((iso - v1) / (v2 - v1))) :=
      le_max_left _ _
    have hhi : max (1 / 1000) (min (999 / 1000) ((iso - v1) / (v2 - v1))) ≤
        (999 : ℚ) / 1000 :=
      max_le (by norm_num) (min_le_left _ _)
    exact ⟨fun _ => rfl, fun h2 => absurd h (not_lt.mpr h2), hlo, hhi,
      by linarith, by linarith⟩
  · rw [if_neg h]
    exact ⟨fun h2 => absurd h2 h, fun _ => rfl, by norm_num, by norm_num,
      by norm_num, by norm_num⟩

/-- C8 witness: equal corner values 3 and 3 fall back to t = 1/2. -/
theorem c8_interpolation_param_spec_witness :
    MC.interpolateT 0 3 3 = 1 / 2 :=
  (c8_interpolation_param_spec 0 3 3).2.1 (by norm_num)

namespace MC

theorem getScalarFieldIndex_some_lt {sx sy sz : ℕ} {x y z : ℤ} {i : ℕ}
    (h : getScalarFieldIndex sx sy sz x y z = some i) : i < sx * sy * sz := by
  unfold getScalarFieldIndex at h
  by_cases hc : x < 0 ∨ y < 0 ∨ z < 0 ∨ (sx : ℤ) ≤ x ∨ (sy : ℤ) ≤ y ∨ (sz : ℤ) ≤ z
  · rw [if_pos hc] at h
    exact Option.noConfusion h
  · rw [if_neg hc] at h
    push_neg at hc
    obtain ⟨h1, h2, h3, h4, h5, h6⟩ := hc
    have hi : i = (x + y * sx + z * sx * sy).toNat := (Option.some.inj h).symm
    subst hi
    have hrx : (0 : ℤ) ≤ (sx : ℤ) := Int.natCast_nonneg sx
    have hry : (0 : ℤ) ≤ (sy : ℤ) := Int.natCast_nonneg sy
    have hyb : y * (sx : ℤ) ≤ ((sy : ℤ) - 1) * sx :=
      mul_le_mul_of_nonneg_right (by omega) hrx
    have hzb : z * (sx : ℤ) * sy ≤ ((sz : ℤ) - 1) * sx * sy := by
      have := mul_le_mul_of_nonneg_right (show z ≤ (sz : ℤ) - 1 by omega) hrx
      exact mul_le_mul_of_nonneg_right this hry
    have hy0 : 0 ≤ y * (sx : ℤ) := mul_nonneg h2 hrx
    have hz0 : 0 ≤ z * (sx : ℤ) * sy := mul_nonneg (mul_nonneg h3 hrx) hry
    have hE : x + y * (sx : ℤ) + z * sx * sy < (sx : ℤ) * sy * sz := by
      nlinarith [h4]
    have hcast : ((sx * sy * sz : ℕ) : ℤ) = (sx : ℤ) * sy * sz := by
      push_cast
      ring
    omega

theorem getD_replicate_of_some {v : ℚ} {sx sy sz : ℕ} {x y z : ℤ} {i : ℕ}
    (h : getScalarFieldIndex sx sy sz x y z = some i) :
    (List.replicate (sx * sy * sz) v).getD i 0 = v := by
  have hlt := getScalarFieldIndex_some_lt h
  rw [List.getD_eq_getElem?_getD, List.getElem?_replicate, if_pos hlt]
  rfl

theorem idwRow_cons_none (sq : ℚ → ℚ) (field : List ℚ) (sx sy sz : ℕ)
    (cx cy cz dy dz dx : ℤ) (rest : List ℤ) (st : IdwSt)
    (hg : getScalarFieldIndex sx sy sz (cx + dx) (cy + dy) (cz + dz) = none) :
    idwRow sq field sx sy sz cx cy cz dy dz (dx :: rest) st =
      idwRow sq field sx sy sz cx cy cz dy dz rest st := by
  simp only [idwRow, hg]

theorem idwRow_cons_far (sq : ℚ → ℚ) (field : List ℚ) (sx sy sz : ℕ)
    (cx cy cz dy dz dx : ℤ) (rest : List ℤ) (st : IdwSt) (i : ℕ)
    (hg : getScalarFieldIndex sx sy sz (cx + dx) (cy + dy) (cz + dz) = some i)
    (hfar : ¬ sq ((dx * dx + dy * dy + dz * dz : ℤ) : ℚ) < 1 / 10000) :
    idwRow sq field sx sy sz cx cy cz dy dz (dx :: rest) st =
      idwRow sq field sx sy sz cx cy cz dy dz rest
        { st with
          totalValue := st.totalValue +
            field.getD i 0 * (1 / (1 + sq ((dx * dx + dy * dy + dz * dz : ℤ) : ℚ))),
          totalWeight := st.totalWeight +
            1 / (1 + sq ((dx * dx + dy * dy + dz * dz : ℤ) : ℚ)) } := by
  simp only [idwRow, hg]
  rw [if_neg hfar]

theorem offset_sq_ge_one {dx dy dz : ℤ} (h : ¬(dx = 0 ∧ dy = 0 ∧ dz = 0)) :
    1 ≤ ((dx * dx + dy * dy + dz * dz : ℤ) : ℚ) := by
  have h1 : 0 ≤ dx * dx := mul_self_nonneg dx
  have h2 : 0 ≤ dy * dy := mul_self_nonneg dy
  have h3 : 0 ≤ dz * dz := mul_self_nonneg dz
  have hs : 1 ≤ dx * dx + dy * dy + dz * dz := by
    by_contra hlt
    push_neg at hlt
    have hx0 : dx * dx = 0 ∧ dy * dy = 0 ∧ dz * dz = 0 := by omega
    exact h ⟨mul_self_eq_zero.mp hx0.1, mul_self_eq_zero.mp hx0.2.1,
      mul_self_eq_zero.mp hx0.2.2⟩
  exact_mod_cast hs

theorem idwRow_const {sq : ℚ → ℚ} {field : List ℚ} {sx sy sz : ℕ} {v : ℚ}
    (hf : ∀ (a b c : ℤ) (i : ℕ), getScalarFieldIndex sx sy sz a b c = some i →
      field.getD i 0 = v)
    (hsq1 : ∀ q : ℚ, 1 ≤ q → 1 ≤ sq q)
    {cx cy cz : ℤ}
    (hnone : getScalarFieldIndex sx sy sz cx cy cz = none)
    (dy dz : ℤ) :
    ∀ (dxs : List ℤ) (st : IdwSt),
      st.totalValue = v * st.totalWeight → 0 ≤ st.totalWeight →
      (idwRow sq field sx sy sz cx cy cz dy dz dxs st).value = st.value ∧
      (idwRow sq field sx sy sz cx cy cz dy dz dxs st).totalValue =
        v * (idwRow sq field sx sy sz cx cy cz dy dz dxs st).totalWeight ∧
      st.totalWeight ≤ (idwRow sq field sx sy sz cx cy cz dy dz dxs st).totalWeight ∧
      ((∃ dx ∈ dxs,
          (getScalarFieldIndex sx sy sz (cx + dx) (cy + dy) (cz + dz)).isSome) →
        st.totalWeight < (idwRow sq field sx sy sz cx cy cz dy dz dxs st).totalWeight) := by
  intro dxs
  induction dxs with
  | nil =>
    intro st h1 h2
    exact ⟨rfl, h1, le_refl _, by simp⟩
  | cons dx rest ih =>
    intro st h1 h2
    cases hg : getScalarFieldIndex sx sy sz (cx + dx) (cy + dy) (cz + dz) with
    | none =>
      rw [idwRow_cons_none sq field sx sy sz cx cy cz dy dz dx rest st hg]
      obtain ⟨ha, hb, hc, hd⟩ := ih st h1 h2
      refine ⟨ha, hb, hc, ?_⟩
      rintro ⟨d, hd2, hds⟩
      rcases List.mem_cons.mp hd2 with heq | hd3
      · subst heq
        rw [hg] at hds
        exact absurd hds (by simp)
      · exact hd ⟨d, hd3, hds⟩
    | some i =>
      have hne : ¬(dx = 0 ∧ dy = 0 ∧ dz = 0) := by
        rintro ⟨rfl, rfl, rfl⟩
        simp only [add_zero] at hg
        rw [hnone] at hg
        exact Option.noConfusion hg
      have hd2 := offset_sq_ge_one hne
      have hdist := hsq1 _ hd2
      have hfar : ¬ sq ((dx * dx + dy * dy + dz * dz : ℤ) : ℚ) < 1 / 10000 := by
        linarith
      have hw : 0 < 1 / (1 + sq ((dx * dx + dy * dy + dz * dz : ℤ) : ℚ)) := by
        apply one_div_pos.mpr
        linarith
      rw [idwRow_cons_far sq field sx sy sz cx cy cz dy dz dx rest st i hg hfar]
      rw [hf _ _ _ _ hg]
      obtain ⟨ha, hb, hc, hd⟩ := ih
        { st with
          totalValue := st.totalValue +
            v * (1 / (1 + sq ((dx * dx + dy * dy + dz * dz : ℤ) : ℚ))),
          totalWeight := st.totalWeight +
            1 / (1 + sq ((dx * dx + dy * dy + dz * dz : ℤ) : ℚ)) }
        (by simp only; rw [h1]; ring) (by simp only; linarith)
      simp only at ha hb hc
      refine ⟨ha, hb, by linarith, fun _ => by linarith⟩

end MC

namespace MC

theorem idwPlane_const {sq : ℚ → ℚ} {field : List ℚ} {sx sy sz : ℕ} {v : ℚ}
    (hf : ∀ (a b c : ℤ) (i : ℕ), getScalarFieldIndex sx sy sz a b c = some i →
      field.getD i 0 = v)
    (hsq1 : ∀ q : ℚ, 1 ≤ q → 1 ≤ sq q)
    {cx cy cz : ℤ}
    (hnone : getScalarFieldIndex sx sy sz cx cy cz = none)
    (dz : ℤ) :
    ∀ (dys : List ℤ) (st : IdwSt),
      st.totalValue = v * st.totalWeight → 0 ≤ st.totalWeight →
      (dys.foldl (fun st dy => idwRow sq field sx sy sz cx cy cz dy dz idwOffsets st)
          st).value = st.value ∧
      (dys.foldl (fun st dy => idwRow sq field sx sy sz cx cy cz dy dz idwOffsets st)
          st).totalValue =
        v * (dys.foldl (fun st dy =>
          idwRow sq field sx sy sz cx cy cz dy dz idwOffsets st) st).totalWeight ∧
      st.totalWeight ≤ (dys.foldl (fun st dy =>
          idwRow sq field sx sy sz cx cy cz dy dz idwOffsets st) st).totalWeight ∧
      ((∃ dy ∈ dys, ∃ dx ∈ idwOffsets,
          (getScalarFieldIndex sx sy sz (cx + dx) (cy + dy) (cz + dz)).isSome) →
        st.totalWeight < (dys.foldl (fun st dy =>
          idwRow sq field sx sy sz cx cy cz dy dz idwOffsets st) st).totalWeight) := by
  intro dys
  induction dys with
  | nil =>
    intro st h1 h2
    exact ⟨rfl, h1, le_refl _, by simp⟩
  | cons dy rest ih =>
    intro st h1 h2
    rw [List.foldl_cons]
    obtain ⟨ra, rb, rc, rd⟩ := idwRow_const hf hsq1 hnone dy dz idwOffsets st h1 h2
    obtain ⟨ha, hb, hc, hd⟩ := ih
      (idwRow sq field sx sy sz cx cy cz dy dz idwOffsets st) rb (le_trans h2 rc)
    refine ⟨by rw [ha, ra], hb, le_trans rc hc, ?_⟩
    rintro ⟨d, hdm, hx⟩
    rcases List.mem_cons.mp hdm with heq | hdm2
    · subst heq
      exact lt_of_lt_of_le (rd hx) hc
    · exact lt_of_le_of_lt rc (hd ⟨d, hdm2, hx⟩)

theorem idwCube_const {sq : ℚ → ℚ} {field : List ℚ} {sx sy sz : ℕ} {v : ℚ}
    (hf : ∀ (a b c : ℤ) (i : ℕ), getScalarFieldIndex sx sy sz a b c = some i →
      field.getD i 0 = v)
    (hsq1 : ∀ q : ℚ, 1 ≤ q → 1 ≤ sq q)
    {cx cy cz : ℤ}
    (hnone : getScalarFieldIndex sx sy sz cx cy cz = none) :
    ∀ (dzs : List ℤ) (st : IdwSt),
      st.totalValue = v * st.totalWeight → 0 ≤ st.totalWeight →
      (dzs.foldl (fun st dz => idwOffsets.foldl (fun st dy =>
          idwRow sq field sx sy sz cx cy cz dy dz idwOffsets st) st) st).value =
        st.value ∧
      (dzs.foldl (fun st dz => idwOffsets.foldl (fun st dy =>
          idwRow sq field sx sy sz cx cy cz dy dz idwOffsets st) st) st).totalValue =
        v * (dzs.foldl (fun st dz => idwOffsets.foldl (fun st dy =>
          idwRow sq field sx sy sz cx cy cz dy dz idwOffsets st) st) st).totalWeight ∧
      st.totalWeight ≤ (dzs.foldl (fun st dz => idwOffsets.foldl (fun st dy =>
          idwRow sq field sx sy sz cx cy cz dy dz idwOffsets st) st) st).totalWeight ∧
      ((∃ dz ∈ dzs, ∃ dy ∈ idwOffsets, ∃ dx ∈ idwOffsets,
          (getScalarFieldIndex sx sy sz (cx + dx) (cy + dy) (cz + dz)).isSome) →
        st.totalWeight < (dzs.foldl (fun st dz => idwOffsets.foldl (fun st dy =>
          idwRow sq field sx sy sz cx cy cz dy dz idwOffsets st) st) st).totalWeight) := by
  intro dzs
  induction dzs with
  | nil =>
    intro st h1 h2
    exact ⟨rfl, h1, le_refl _, by simp⟩
  | cons dz rest ih =>
    intro st h1 h2
    rw [List.foldl_cons]
    obtain ⟨ra, rb, rc, rd⟩ := idwPlane_const hf hsq1 hnone dz idwOffsets st h1 h2
    obtain ⟨ha, hb, hc, hd⟩ := ih
      (idwOffsets.foldl (fun st dy =>
        idwRow sq field sx sy sz cx cy cz dy dz idwOffsets st) st) rb (le_trans h2 rc)
    refine ⟨by rw [ha, ra], hb, le_trans rc hc, ?_⟩
    rintro ⟨d, hdm, hx⟩
    rcases List.mem_cons.mp hdm with heq | hdm2
    · subst heq
      exact lt_of_lt_of_le (rd hx) hc
    · exact lt_of_le_of_lt rc (hd ⟨d, hdm2, hx⟩)

theorem synthesizeValue_const {sq : ℚ → ℚ} {field : List ℚ} {sx sy sz : ℕ} {v : ℚ}
    (hf : ∀ (a b c : ℤ) (i : ℕ), getScalarFieldIndex sx sy sz a b c = some i →
      field.getD i 0 = v)
    (hsq1 : ∀ q : ℚ, 1 ≤ q → 1 ≤ sq q)
    {cx cy cz : ℤ}
    (hnone : getScalarFieldIndex sx sy sz cx cy cz = none)
    (hhit : ∃ dz ∈ idwOffsets, ∃ dy ∈ idwOffsets, ∃ dx ∈ idwOffsets,
      (getScalarFieldIndex sx sy sz (cx + dx) (cy + dy) (cz + dz)).isSome) :
    synthesizeValue sq field sx sy sz cx cy cz = v := by
  obtain ⟨_, hb, _, hd⟩ := idwCube_const hf hsq1 hnone idwOffsets
    { value := if cx < 0 ∨ (sx : ℤ) ≤ cx ∨ cy < 0 ∨ (sy : ℤ) ≤ cy ∨ cz < 0 ∨
          (sz : ℤ) ≤ cz then -1 else 1,
      totalValue := 0, totalWeight := 0 } (by simp) (le_refl 0)
  have htw := hd hhit
  simp only [synthesizeValue]
  rw [if_pos htw, hb, mul_div_assoc, div_self (ne_of_gt htw), mul_one]

end MC

namespace MC

theorem cornerValue_const {sq : ℚ → ℚ} {field : List ℚ} {sx sy sz : ℕ} {v : ℚ}
    (hf : ∀ (a b c : ℤ) (i : ℕ), getScalarFieldIndex sx sy sz a b c = some i →
      field.getD i 0 = v)
    (hsq1 : ∀ q : ℚ, 1 ≤ q → 1 ≤ sq q)
    (hsx : 1 ≤ sx) (hsy : 1 ≤ sy) (hsz : 1 ≤ sz)
    {cx cy cz : ℤ}
    (hcx : -1 ≤ cx ∧ cx ≤ (sx : ℤ)) (hcy : -1 ≤ cy ∧ cy ≤ (sy : ℤ))
    (hcz : -1 ≤ cz ∧ cz ≤ (sz : ℤ)) :
    cornerValue sq field sx sy sz cx cy cz = v := by
  unfold cornerValue
  cases hg : getScalarFieldIndex sx sy sz cx cy cz with
  | some i => exact hf _ _ _ _ hg
  | none =>
    have hax : 0 ≤ cx + (if cx < 0 then (1 : ℤ) else if (sx : ℤ) ≤ cx then -1 else 0) ∧
        cx + (if cx < 0 then (1 : ℤ) else if (sx : ℤ) ≤ cx then -1 else 0) < (sx : ℤ) := by
      by_cases h : cx < 0
      · rw [if_pos h]; omega
      · rw [if_neg h]
        by_cases h2 : (sx : ℤ) ≤ cx
        · rw [if_pos h2]; omega
        · rw [if_neg h2]; omega
    have hay : 0 ≤ cy + (if cy < 0 then (1 : ℤ) else if (sy : ℤ) ≤ cy then -1 else 0) ∧
        cy + (if cy < 0 then (1 : ℤ) else if (sy : ℤ) ≤ cy then -1 else 0) < (sy : ℤ) := by
      by_cases h : cy < 0
      · rw [if_pos h]; omega
      · rw [if_neg h]
        by_cases h2 : (sy : ℤ) ≤ cy
        · rw [if_pos h2]; omega
        · rw [if_neg h2]; omega
    have haz : 0 ≤ cz + (if cz < 0 then (1 : ℤ) else if (sz : ℤ) ≤ cz then -1 else 0) ∧
        cz + (if cz < 0 then (1 : ℤ) else if (sz : ℤ) ≤ cz then -1 else 0) < (sz : ℤ) := by
      by_cases h : cz < 0
      · rw [if_pos h]; omega
      · rw [if_neg h]
        by_cases h2 : (sz : ℤ) ≤ cz
        · rw [if_pos h2]; omega
        · rw [if_neg h2]; omega
    apply synthesizeValue_const hf hsq1 hg
    refine ⟨if cz < 0 then 1 else if (sz : ℤ) ≤ cz then -1 else 0, ?_,
      if cy < 0 then 1 else if (sy : ℤ) ≤ cy then -1 else 0, ?_,
      if cx < 0 then 1 else if (sx : ℤ) ≤ cx then -1 else 0, ?_, ?_⟩
    · by_cases h : cz < 0
      · simp [h, idwOffsets]
      · by_cases h2 : (sz : ℤ) ≤ cz <;> simp [h, h2, idwOffsets]
    · by_cases h : cy < 0
      · simp [h, idwOffsets]
      · by_cases h2 : (sy : ℤ) ≤ cy <;> simp [h, h2, idwOffsets]
    · by_cases h : cx < 0
      · simp [h, idwOffsets]
      · by_cases h2 : (sx : ℤ) ≤ cx <;> simp [h, h2, idwOffsets]
    · unfold getScalarFieldIndex
      rw [if_neg (by push_neg; exact ⟨hax.1, hay.1, haz.1, hax.2, hay.2, haz.2⟩)]
      simp

theorem cubeValues_const {sq : ℚ → ℚ} {field : List ℚ} {sx sy sz : ℕ} {v : ℚ}
    (hf : ∀ (a b c : ℤ) (i : ℕ), getScalarFieldIndex sx sy sz a b c = some i →
      field.getD i 0 = v)
    (hsq1 : ∀ q : ℚ, 1 ≤ q → 1 ≤ sq q)
    (hsx : 1 ≤ sx) (hsy : 1 ≤ sy) (hsz : 1 ≤ sz)
    {x y z : ℤ}
    (hx : -1 ≤ x ∧ x ≤ (sx : ℤ) - 1) (hy : -1 ≤ y ∧ y ≤ (sy : ℤ) - 1)
    (hz : -1 ≤ z ∧ z ≤ (sz : ℤ) - 1) :
    ∀ i : ℕ, i < 8 → (cubeValues sq field sx sy sz x y z).getD i 0 = v := by
  have hc : ∀ a b : ℤ, a = 0 ∨ a = 1 → b = 0 ∨ b = 1 → ∀ c : ℤ, c = 0 ∨ c = 1 →
      cornerValue sq field sx sy sz (x + a) (y + b) (z + c) = v := by
    intro a b hab hbb c hcb
    exact cornerValue_const hf hsq1 hsx hsy hsz
      (by constructor <;> omega) (by constructor <;> omega) (by constructor <;> omega)
  intro i hi
  simp only [cubeValues, VERTICES, List.map_cons, List.map_nil]
  interval_cases i <;>
    simp only [List.getD_cons_zero, List.getD_cons_succ] <;>
    exact hc _ _ (by omega) (by omega) _ (by omega)

theorem cubeIndexOf_const (iso v : ℚ) (vals : List ℚ)
    (h : ∀ i : ℕ, i < 8 → vals.getD i 0 = v) :
    cubeIndexOf iso vals = if v < iso then 255 else 0 := by
  have e : List.range 8 = [0, 1, 2, 3, 4, 5, 6, 7] := rfl
  simp only [cubeIndexOf, e, List.foldl_cons, List.foldl_nil,
    h 0 (by norm_num), h 1 (by norm_num), h 2 (by norm_num), h 3 (by norm_num),
    h 4 (by norm_num), h 5 (by norm_num), h 6 (by norm_num), h 7 (by norm_num)]
  by_cases hv : v < iso
  · simp [hv]
  · simp [hv]

theorem foldl_fixed {α β : Type} (f : β → α → β) :
    ∀ (l : List α) (b : β), (∀ x ∈ l, ∀ b2, f b2 x = b2) → l.foldl f b = b := by
  intro l
  induction l with
  | nil => intro b _; rfl
  | cons a rest ih =>
    intro b h
    rw [List.foldl_cons, h a (List.mem_cons_self a rest) b]
    exact ih b (fun x hx b2 => h x (List.mem_cons_of_mem a hx) b2)

end MC

namespace MC

theorem tableEntry_255_head : (tableEntry 255).headD (-1) = -1 := by decide

theorem tableEntry_0_head : (tableEntry 0).headD (-1) = -1 := by decide

theorem polygonizeCube_const {sq : ℚ → ℚ} {o : MCOpts} {field : List ℚ}
    {sx sy sz : ℕ} {v : ℚ}
    (hf : ∀ (a b c : ℤ) (i : ℕ), getScalarFieldIndex sx sy sz a b c = some i →
      field.getD i 0 = v)
    (hsq1 : ∀ q : ℚ, 1 ≤ q → 1 ≤ sq q)
    (hsx : 1 ≤ sx) (hsy : 1 ≤ sy) (hsz : 1 ≤ sz)
    {x y z : ℤ}
    (hx : -1 ≤ x ∧ x ≤ (sx : ℤ) - 1) (hy : -1 ≤ y ∧ y ≤ (sy : ℤ) - 1)
    (hz : -1 ≤ z ∧ z ≤ (sz : ℤ) - 1) (b : MeshBuf) :
    polygonizeCube sq o field sx sy sz x y z b = b := by
  have hvals := cubeValues_const hf hsq1 hsx hsy hsz hx hy hz
  have hci := cubeIndexOf_const o.isoLevel v _ hvals
  simp only [polygonizeCube, hci]
  by_cases hv : v < o.isoLevel
  · rw [if_pos hv, tableEntry_255_head, if_pos rfl]
  · rw [if_neg hv, tableEntry_0_head, if_pos rfl]

end MC

/-- C7: for a constant density field every cell — including the padded
boundary cells whose out-of-grid corners are synthesized by
inverse-distance extrapolation — classifies as configuration 255 when
the constant is below the isoLevel and as configuration 0 otherwise,
and mesh extraction over the whole padded region emits nothing: no
positions, normals, indices or cached vertices. `sq` abstracts
`Math.sqrt`; `hsq1` is the only fact the proof needs about it. -/
theorem c7_constant_field_no_geometry (sq : ℚ → ℚ) (o : MC.MCOpts)
    (field : List ℚ) (sx sy sz : ℕ) (v : ℚ)
    (hf : ∀ (a b c : ℤ) (i : ℕ), MC.getScalarFieldIndex sx sy sz a b c = some i →
      field.getD i 0 = v)
    (hsq1 : ∀ q : ℚ, 1 ≤ q → 1 ≤ sq q)
    (hsx : 1 ≤ sx) (hsy : 1 ≤ sy) (hsz : 1 ≤ sz) :
    (∀ x y z : ℤ, x ∈ MC.cellRange sx → y ∈ MC.cellRange sy → z ∈ MC.cellRange sz →
      MC.cubeIndexOf o.isoLevel (MC.cubeValues sq field sx sy sz x y z) =
        if v < o.isoLevel then 255 else 0) ∧
    MC.generateMesh sq o field sx sy sz = MC.emptyBuf := by
  constructor
  · intro x y z hxm hym hzm
    rw [MC.cellRange, mem_intRange] at hxm hym hzm
    exact MC.cubeIndexOf_const o.isoLevel v _
      (MC.cubeValues_const hf hsq1 hsx hsy hsz
        (by constructor <;> omega) (by constructor <;> omega)
        (by constructor <;> omega))
  · unfold MC.generateMesh
    apply MC.foldl_fixed
    intro z hzm b
    rw [MC.cellRange, mem_intRange] at hzm
    apply MC.foldl_fixed
    intro y hym b2
    rw [MC.cellRange, mem_intRange] at hym
    apply MC.foldl_fixed
    intro x hxm b3
    rw [MC.cellRange, mem_intRange] at hxm
    exact MC.polygonizeCube_const hf hsq1 hsx hsy hsz
      (by constructor <;> omega) (by constructor <;> omega)
      (by constructor <;> omega) b3

/-- C7 witness: the constant field -1 on a 2x2x2 grid with isoLevel 0
(everywhere below the surface) produces the empty mesh. -/
theorem c7_constant_field_no_geometry_witness :
    MC.generateMesh (fun q => if 1 ≤ q then (1 : ℚ) else 0)
      { isoLevel := 0, minX := 0, maxX := 1, minY := 0, maxY := 1,
        minZ := 0, maxZ := 1, seamless := true, doubleSided := true }
      (List.replicate 8 (-1 : ℚ)) 2 2 2 = MC.emptyBuf :=
  (c7_constant_field_no_geometry (fun q => if 1 ≤ q then (1 : ℚ) else 0)
    { isoLevel := 0, minX := 0, maxX := 1, minY := 0, maxY := 1,
      minZ := 0, maxZ := 1, seamless := true, doubleSided := true }
    (List.replicate 8 (-1 : ℚ)) 2 2 2 (-1)
    (fun a b c i h => MC.getD_replicate_of_some h)
    (fun q hq => by simp only; rw [if_pos hq])
    (by norm_num) (by norm_num) (by norm_num)).2

namespace MC

theorem emitVertex_false (b : MeshBuf) (v n : ℚ × ℚ × ℚ) :
    emitVertex false b v n =
      (b.positions.length / 3,
        { b with positions := b.positions ++ [v.1, v.2.1, v.2.2],
                 normals := b.normals ++ [n.1, n.2.1, n.2.2] }) := rfl

theorem emitVertex_true_hit (b : MeshBuf) (v n : ℚ × ℚ × ℚ) (p : (ℚ × ℚ × ℚ) × ℕ)
    (hfind : b.cache.find? (fun q => q.1 == cacheKey v) = some p) :
    emitVertex true b v n = (p.2, b) := by
  simp only [emitVertex, if_true, hfind]

theorem emitVertex_true_miss (b : MeshBuf) (v n : ℚ × ℚ × ℚ)
    (hfind : b.cache.find? (fun q => q.1 == cacheKey v) = none) :
    emitVertex true b v n =
      (b.positions.length / 3,
        { b with positions := b.positions ++ [v.1, v.2.1, v.2.2],
                 normals := b.normals ++ [n.1, n.2.1, n.2.2],
                 cache := b.cache ++ [(cacheKey v, b.positions.length / 3)] }) := by
  simp only [emitVertex, if_true, hfind]

theorem emitVertex_wf {ds : Bool} (s : Bool) {b : MeshBuf} (v n : ℚ × ℚ × ℚ)
    (hb : BufWF ds b) :
    BufWF ds (emitVertex s b v n).2 ∧
    (emitVertex s b v n).1 < (emitVertex s b v n).2.positions.length / 3 ∧
    b.positions.length ≤ (emitVertex s b v n).2.positions.length ∧
    (emitVertex s b v n).2.indices = b.indices := by
  obtain ⟨h1, h2, h3, h4, h5, h6⟩ := hb
  cases s with
  | false =>
    rw [emitVertex_false]
    refine ⟨⟨?_, ?_, ?_, ?_, h5, h6⟩, ?_, ?_, rfl⟩
    · simp [h1]
    · simp only [List.length_append, List.length_cons, List.length_nil]
      omega
    · intro i hi
      have := h3 i hi
      simp only [List.length_append, List.length_cons, List.length_nil]
      omega
    · intro p hp
      have := h4 p hp
      simp only [List.length_append, List.length_cons, List.length_nil]
      omega
    · simp only [List.length_append, List.length_cons, List.length_nil]
      omega
    · simp only [List.length_append, List.length_cons, List.length_nil]
      omega
  | true =>
    cases hfind : b.cache.find? (fun q => q.1 == cacheKey v) with
    | some p =>
      rw [emitVertex_true_hit b v n p hfind]
      exact ⟨⟨h1, h2, h3, h4, h5, h6⟩,
        h4 p (List.mem_of_find?_eq_some hfind), le_refl _, rfl⟩
    | none =>
      rw [emitVertex_true_miss b v n hfind]
      refine ⟨⟨?_, ?_, ?_, ?_, h5, h6⟩, ?_, ?_, rfl⟩
      · simp [h1]
      · simp only [List.length_append, List.length_cons, List.length_nil]
        omega
      · intro i hi
        have := h3 i hi
        simp only [List.length_append, List.length_cons, List.length_nil]
        omega
      · intro p hp
        simp only [List.length_append, List.length_cons, List.length_nil]
        rcases List.mem_append.mp hp with hold | hnew
        · have := h4 p hold
          omega
        · have : p.2 = b.positions.length / 3 := by
            rcases List.mem_singleton.mp hnew with rfl
            rfl
          omega
      · simp only [List.length_append, List.length_cons, List.length_nil]
        omega
      · simp only [List.length_append, List.length_cons, List.length_nil]
        omega

theorem foldl_preserve {α β : Type} (f : β → α → β) (P : β → Prop)
    (h : ∀ b x, P b → P (f b x)) : ∀ (l : List α) (b : β), P b → P (l.foldl f b) := by
  intro l
  induction l with
  | nil => intro b hb; exact hb
  | cons a rest ih =>
    intro b hb
    rw [List.foldl_cons]
    exact ih (f b a) (h b a hb)

theorem collectTriangle_wf {ds : Bool} (s : Bool)
    (ed : ℤ → Option ((ℚ × ℚ × ℚ) × (ℚ × ℚ × ℚ))) (b : MeshBuf) (es : List ℤ)
    (hb : BufWF ds b) :
    BufWF ds (collectTriangle s ed b es).2 ∧
    (∀ i ∈ (collectTriangle s ed b es).1,
      i < (collectTriangle s ed b es).2.positions.length / 3) ∧
    (collectTriangle s ed b es).2.indices = b.indices := by
  unfold collectTriangle
  have := foldl_preserve
    (fun (acc : List ℕ × MeshBuf) (e : ℤ) =>
      match ed e with
      | some vn =>
        let r := emitVertex s acc.2 vn.1 vn.2
        (acc.1 ++ [r.1], r.2)
      | none => acc)
    (fun acc => BufWF ds acc.2 ∧
      (∀ i ∈ acc.1, i < acc.2.positions.length / 3) ∧ acc.2.indices = b.indices)
    ?_ es ([], b) ⟨hb, by simp, rfl⟩
  · exact this
  · intro acc e hacc
    obtain ⟨ha, hbnd, hidx⟩ := hacc
    cases he : ed e with
    | none => simpa [he] using ⟨ha, hbnd, hidx⟩
    | some vn =>
      obtain ⟨w1, w2, w3, w4⟩ := emitVertex_wf s vn.1 vn.2 ha
      simp only [he]
      refine ⟨w1, ?_, by rw [w4, hidx]⟩
      intro i hi
      rcases List.mem_append.mp hi with hold | hnew
      · exact lt_of_lt_of_le (hbnd i hold) (Nat.div_le_div_right w3)
      · rcases List.mem_singleton.mp hnew with rfl
        exact w2

end MC

namespace MC

theorem RevBlocks_length_mod6 {l : List ℕ} (h : RevBlocks l) : l.length % 6 = 0 := by
  induction h with
  | nil => rfl
  | block a b c h ih =>
    simp only [List.length_append, List.length_cons, List.length_nil]
    omega

theorem emitTriangle_wf (o : MCOpts) (ed : ℤ → Option ((ℚ × ℚ × ℚ) × (ℚ × ℚ × ℚ)))
    {b : MeshBuf} (e0 e1 e2 : ℤ) (hb : BufWF o.doubleSided b) :
    BufWF o.doubleSided (emitTriangle o ed b e0 e1 e2) := by
  obtain ⟨hc1, hc2, hc3⟩ := collectTriangle_wf o.seamless ed b [e0, e1, e2] hb
  obtain ⟨w1, w2, w3, w4, w5, w6⟩ := hc1
  simp only [emitTriangle]
  by_cases hlen : (collectTriangle o.seamless ed b [e0, e1, e2]).1.length = 3
  · rw [if_pos hlen]
    obtain ⟨i0, i1, i2, hl⟩ := List.length_eq_three.mp hlen
    rw [hl]
    simp only [List.getD_cons_zero, List.getD_cons_succ]
    have hmem : ∀ j, j ∈ [i0, i1, i2] →
        j < (collectTriangle o.seamless ed b [e0, e1, e2]).2.positions.length / 3 := by
      intro j hj
      apply hc2
      rw [hl]
      exact hj
    refine ⟨w1, w2, ?_, w4, ?_, ?_⟩
    · intro i hi
      rcases List.mem_append.mp hi with hi2 | hnew
      · rcases List.mem_append.mp hi2 with hold | htri
        · exact w3 i hold
        · exact hmem i (by simpa using htri)
      · cases hds : o.doubleSided with
        | true =>
          have hcase : i = i2 ∨ i = i1 ∨ i = i0 := by simpa [hds] using hnew
          rcases hcase with rfl | rfl | rfl
          · exact hmem i (by simp)
          · exact hmem i (by simp)
          · exact hmem i (by simp)
        | false =>
          exact absurd hnew (by simp [hds])
    · cases hds : o.doubleSided with
      | true =>
        have hite : (if (true = true) then [i2, i1, i0] else ([] : List ℕ)) =
            [i2, i1, i0] := by simp
        rw [hite]
        simp only [List.length_append, List.length_cons, List.length_nil]
        omega
      | false =>
        have hite : (if (false = true) then [i2, i1, i0] else ([] : List ℕ)) = [] := by
          simp
        rw [hite]
        simp only [List.append_nil, List.length_append, List.length_cons,
          List.length_nil]
        omega
    · intro hds
      rw [hds, if_pos rfl]
      have heq : (collectTriangle o.seamless ed b [e0, e1, e2]).2.indices ++
          [i0, i1, i2] ++ [i2, i1, i0] =
          (collectTriangle o.seamless ed b [e0, e1, e2]).2.indices ++
            [i0, i1, i2, i2, i1, i0] := by
        simp
      rw [heq]
      exact RevBlocks.block i0 i1 i2 (w6 hds)
  · rw [if_neg hlen]
    exact ⟨w1, w2, w3, w4, w5, w6⟩

theorem triangleLoop_wf (o : MCOpts) (ed : ℤ → Option ((ℚ × ℚ × ℚ) × (ℚ × ℚ × ℚ))) :
    ∀ (n : ℕ) (es : List ℤ), es.length ≤ n → ∀ b : MeshBuf,
      BufWF o.doubleSided b → BufWF o.doubleSided (triangleLoop o ed es b) := by
  intro n
  induction n with
  | zero =>
    intro es hlen b hb
    have he : es = [] := List.eq_nil_of_length_eq_zero (Nat.le_zero.mp hlen)
    subst he
    exact hb
  | succ n ih =>
    intro es hlen b hb
    cases es with
    | nil => exact hb
    | cons e0 rest =>
      cases rest with
      | nil =>
        by_cases h0 : e0 = -1
        · simp only [triangleLoop, if_pos h0]
          exact hb
        · simp only [triangleLoop, if_neg h0]
          exact emitTriangle_wf o ed _ _ _ hb
      | cons e1 rest1 =>
        cases rest1 with
        | nil =>
          by_cases h0 : e0 = -1
          · simp only [triangleLoop, if_pos h0]
            exact hb
          · simp only [triangleLoop, if_neg h0]
            exact emitTriangle_wf o ed _ _ _ hb
        | cons e2 rest2 =>
          by_cases h0 : e0 = -1
          · simp only [triangleLoop, if_pos h0]
            exact hb
          · simp only [triangleLoop, if_neg h0]
            refine ih rest2 ?_ _ (emitTriangle_wf o ed _ _ _ hb)
            simp only [List.length_cons] at hlen
            omega

theorem polygonizeCube_wf (sq : ℚ → ℚ) (o : MCOpts) (field : List ℚ)
    (sx sy sz : ℕ) (x y z : ℤ) {b : MeshBuf} (hb : BufWF o.doubleSided b) :
    BufWF o.doubleSided (polygonizeCube sq o field sx sy sz x y z b) := by
  simp only [polygonizeCube]
  split
  · exact hb
  · exact triangleLoop_wf o _ _ _ (le_refl _) b hb

theorem emptyBuf_wf (ds : Bool) : BufWF ds emptyBuf :=
  ⟨rfl, rfl, by simp [emptyBuf], by simp [emptyBuf], rfl, fun _ => RevBlocks.nil⟩

end MC

/-- C10: every mesh produced by `generateMesh` is well-formed: the
normals buffer has exactly the positions buffer's length, the positions
length is a multiple of 3, every index is a valid vertex index strictly
below positions.length / 3, the index stream's length is a multiple of
3, and in double-sided mode the stream consists of 6-blocks — each
triangle immediately followed by its reversed-winding copy — so its
length is a multiple of 6. -/
theorem c10_mesh_well_formed (sq : ℚ → ℚ) (o : MC.MCOpts) (field : List ℚ)
    (sx sy sz : ℕ) :
    (MC.generateMesh sq o field sx sy sz).normals.length =
      (MC.generateMesh sq o field sx sy sz).positions.length ∧
    (MC.generateMesh sq o field sx sy sz).positions.length % 3 = 0 ∧
    (∀ i ∈ (MC.generateMesh sq o field sx sy sz).indices,
      i < (MC.generateMesh sq o field sx sy sz).positions.length / 3) ∧
    (MC.generateMesh sq o field sx sy sz).indices.length % 3 = 0 ∧
    (o.doubleSided = true →
      MC.RevBlocks (MC.generateMesh sq o field sx sy sz).indices ∧
      (MC.generateMesh sq o field sx sy sz).indices.length % 6 = 0) := by
  have hwf : MC.BufWF o.doubleSided (MC.generateMesh sq o field sx sy sz) := by
    unfold MC.generateMesh
    apply MC.foldl_preserve _ (MC.BufWF o.doubleSided)
    · intro b z hb
      apply MC.foldl_preserve _ (MC.BufWF o.doubleSided)
      · intro b2 y hb2
        apply MC.foldl_preserve _ (MC.BufWF o.doubleSided)
        · intro b3 x hb3
          exact MC.polygonizeCube_wf sq o field sx sy sz x y z hb3
        · exact hb2
      · exact hb
    · exact MC.emptyBuf_wf o.doubleSided
  obtain ⟨h1, h2, h3, h4, h5, h6⟩ := hwf
  exact ⟨h1, h2, h3, h5, fun hds => ⟨h6 hds, MC.RevBlocks_length_mod6 (h6 hds)⟩⟩

/-- C10 witness: on a concrete double-sided configuration the index
stream of the generated mesh is a multiple of 6. -/
theorem c10_mesh_well_formed_witness :
    MC.RevBlocks (MC.generateMesh (fun _ => (0 : ℚ))
      { isoLevel := 0, minX := 0, maxX := 1, minY := 0, maxY := 1,
        minZ := 0, maxZ := 1, seamless := false, doubleSided := true }
      [] 1 1 1).indices ∧
    (MC.generateMesh (fun _ => (0 : ℚ))
      { isoLevel := 0, minX := 0, maxX := 1, minY := 0, maxY := 1,
        minZ := 0, maxZ := 1, seamless := false, doubleSided := true }
      [] 1 1 1).indices.length % 6 = 0 :=
  (c10_mesh_well_formed (fun _ => (0 : ℚ))
    { isoLevel := 0, minX := 0, maxX := 1, minY := 0, maxY := 1,
      minZ := 0, maxZ := 1, seamless := false, doubleSided := true }
    [] 1 1 1).2.2.2.2 rfl

end MCP
